import Mathlib

set_option maxRecDepth 8192

/-!
Verification of the etl0 streaming container-engine client against its
natural-language specification.

The development shallowly embeds the relevant parts of the source:

* `src/etl0/src/tar/header.rs` — ustar header synthesis (`TarHeader`);
* `src/etl0/src/tar/core.rs`, `state.rs`, `stream.rs` — the lazy tar
  producer state machine (`TarState`, `TarStream`);
* `src/etl0/src/docker/client.rs`, `http.rs` — status-to-outcome mapping;
* `src/etl0/src/docker/stream/common.rs`, `mod.rs` — the streaming buffer
  and the two framing codecs.

Bytes are modelled as `Nat` (values below 256 in real runs); byte strings
as `List Nat`.  Asynchronous effects (file open, metadata, read, HTTP) are
modelled as explicit event inputs to otherwise pure step functions.
-/

/-! ## Octal rendering (`TarHeader::write_octal`, `format!("{:011o}", v)`) -/

/-- Little-endian octal digits of `n`, with structural fuel (the first
argument); `octDigitsAux n n` yields all digits since `n / 8 < n`. -/
def octDigitsAux : Nat → Nat → List Nat
  | 0, _ => []
  | _ + 1, 0 => []
  | fuel + 1, n + 1 => ((n + 1) % 8) :: octDigitsAux fuel ((n + 1) / 8)

/-- ASCII bytes of `format!("{:011o}", v)`: the octal digits of `v`,
zero-padded on the left to at least 11 characters. -/
def octString (v : Nat) : List Nat :=
  let ds := ((octDigitsAux v v).reverse).map (fun d => d + 48)
  if ds.length < 11 then List.replicate (11 - ds.length) 48 ++ ds else ds

/-! ## Header field writers (`src/etl0/src/tar/header.rs`)

The source functions return `TarResult` and raise `MemoryAccess` on an
out-of-range slice; every call site uses constant offsets within the
512-byte header, so those guards cannot fire and the writers are modelled
as total functions on the 512-byte list. -/

/-- `TarHeader::write_bytes`: for `i in 0..length`, set
`header[offset+i] := bytes[i]`, padding with NUL when `bytes` is shorter
than the field. -/
def writeBytes (header : List Nat) (offset length : Nat) (bytes : List Nat) : List Nat :=
  (List.range length).foldl (fun h i => h.set (offset + i) (bytes.getD i 0)) header

/-- `TarHeader::write_octal`: right-align the octal string of `value` into
the field of width `length` at `offset`, filling positions
`length-2, …, 0` from the last characters of the string (`'0'` beyond its
start) and terminating the field with NUL. -/
def writeOctal (header : List Nat) (offset length : Nat) (value : Nat) : List Nat :=
  let s := octString value
  let h := (List.range (length - 1)).foldl
    (fun h i => h.set (offset + (length - 2 - i)) (s.getD (s.length - i - 1) 48)) header
  h.set (offset + (length - 1)) 0

/-- `TarHeader::calculate_checksum`: the sum of all header bytes.  The
source accumulates into a `u32`; the sum of 512 bytes is at most
`512 * 255 < 2^32`, so plain `Nat` addition is exact. -/
def calculateChecksum (header : List Nat) : Nat :=
  header.foldl (fun a b => a + b) 0

/-- Eight ASCII spaces, the placeholder for the checksum field. -/
def spaces8 : List Nat := List.replicate 8 32

/-- `TarHeader::write_chksum`: fill the checksum field with spaces, sum the
header in that state, then render the sum octal into the field. -/
def writeChksum (header : List Nat) : List Nat :=
  let h := writeBytes header 148 8 spaces8
  writeOctal h 148 8 (calculateChecksum h)

/-- `TarHeader::write_name`: the path bytes into field `(0, 99)`. -/
def writeName (header : List Nat) (path : List Nat) : List Nat :=
  writeBytes header 0 99 path

/-- `TarHeader::write_mode`: `mode & 0o777` rendered octal at `(100, 8)`. -/
def writeMode (header : List Nat) (mode : Nat) : List Nat :=
  writeOctal header 100 8 (mode % 512)

/-- `TarHeader::write_uid` at `(108, 8)`. -/
def writeUid (header : List Nat) (uid : Nat) : List Nat :=
  writeOctal header 108 8 uid

/-- `TarHeader::write_gid` at `(116, 8)`. -/
def writeGid (header : List Nat) (gid : Nat) : List Nat :=
  writeOctal header 116 8 gid

/-- `TarHeader::write_size` at `(124, 12)`. -/
def writeSize (header : List Nat) (size : Nat) : List Nat :=
  writeOctal header 124 12 size

/-- `TarHeader::write_mtime` at `(136, 12)`.  The source renders an `i64`;
file mtimes are non-negative, so `Nat` is used. -/
def writeMtime (header : List Nat) (mtime : Nat) : List Nat :=
  writeOctal header 136 12 mtime

/-- `TarHeader::write_type_flag`: ASCII `'0'` at offset 156. -/
def writeTypeFlag (header : List Nat) : List Nat :=
  writeBytes header 156 1 [48]

/-- `TarHeader::write_magic`: `"ustar  \0"` at `(257, 8)`. -/
def writeMagic (header : List Nat) : List Nat :=
  writeBytes header 257 8 [117, 115, 116, 97, 114, 32, 32, 0]

/-- `TarHeader::write`: starting from 512 zero bytes, write name, mode,
uid 0, gid 0, size, mtime, magic, type flag, and finally the checksum, in
the source's order. -/
def headerWrite (path : List Nat) (mode size mtime : Nat) : List Nat :=
  writeChksum (writeTypeFlag (writeMagic (writeMtime
    (writeSize (writeGid (writeUid (writeMode
      (writeName (List.replicate 512 0) path) mode) 0) 0) size) mtime)))

/-- The byte content `write_octal` deposits into a field of width
`length`, as a standalone list: positions `0 … length-2` carry the tail of
the padded octal string and the final byte is NUL.  Position `j` holds the
character that the writer's iteration `i = length-2-j` stores. -/
def octalFieldBytes (length value : Nat) : List Nat :=
  let s := octString value
  ((List.range (length - 1)).map
    (fun j => s.getD (s.length - (length - 2 - j) - 1) 48)) ++ [0]

/-- The `length`-byte field of a header at `offset`. -/
def fieldSlice (header : List Nat) (offset length : Nat) : List Nat :=
  (header.drop offset).take length

/-! ## Tar chunks and archive plan (`src/etl0/src/tar/core.rs`) -/

/-- `TarEntry`: a file identified by its path (UTF-8 bytes). -/
inductive TarEntry where
  | file (path : List Nat)
deriving DecidableEq

/-- `TarChunk`: a header chunk (carrying the entry path), a data chunk, or
one of the two terminal padding chunks. -/
inductive TarChunk where
  | header (path : List Nat) (bytes : List Nat)
  | data (bytes : List Nat)
  | padding (index : Nat)
deriving DecidableEq

/-- `TarChunk::data(pages)`: a zero-initialised data chunk of
`pages * 512` bytes. -/
def TarChunk.dataChunk (pages : Nat) : TarChunk :=
  TarChunk.data (List.replicate (pages * 512) 0)

/-- `TarChunk::len`. -/
def TarChunk.len : TarChunk → Nat
  | TarChunk.header _ bytes => bytes.length
  | TarChunk.padding _ => 512
  | TarChunk.data bytes => bytes.length

/-- `TarChunk::offset(value)` succeeds exactly when `value` is within the
chunk's byte range (padding chunks expose no writable bytes); the source
returns `TarError::MemoryAccess` otherwise. -/
def TarChunk.offsetOk : TarChunk → Nat → Bool
  | TarChunk.padding _, _ => false
  | TarChunk.header _ bytes, value => decide (value ≤ bytes.length)
  | TarChunk.data bytes, value => decide (value ≤ bytes.length)

/-- `impl Into<Vec<u8>> for TarChunk`: the rendered bytes of a chunk; a
padding chunk renders as 512 zero bytes. -/
def TarChunk.toVec : TarChunk → List Nat
  | TarChunk.header _ bytes => bytes
  | TarChunk.padding _ => List.replicate 512 0
  | TarChunk.data bytes => bytes

/-- `TarArchive`: the immutable list of entries. -/
structure TarArchive where
  entries : List TarEntry
deriving DecidableEq

/-! ## The read state (`TarStateRead`, `src/etl0/src/tar/state.rs`) -/

/-- `TarStateRead`: the in-flight data chunk for the current file.
`left` counts unread file bytes, `offset` the filled prefix of `chunk`. -/
structure TarStateRead where
  bufferSize : Nat
  left : Nat
  completed : Nat
  chunk : TarChunk
  offset : Nat
deriving DecidableEq

/-- `TarStateRead::new`: allocates
`min(buffer_size/512, length/512) + (1 if length > 0)` pages for a file of
`length` bytes. -/
def TarStateRead.new (bufferSize length : Nat) : TarStateRead :=
  let left := length / 512
  let available := bufferSize / 512
  let pages := min available left
  let pages := pages + (if length > 0 then 1 else 0)
  { bufferSize := bufferSize, left := length, completed := 0,
    chunk := TarChunk.dataChunk pages, offset := 0 }

/-- Write `new` into `buf` starting at `off` (the effect of `poll_read`
filling the `ReadBuf` view `chunk.offset(offset)`). -/
def spliceAt (buf : List Nat) (off : Nat) (new : List Nat) : List Nat :=
  buf.take off ++ new ++ buf.drop (off + new.length)

/-- `TarStateRead::advance`: account `bytes` read into the chunk. -/
def TarStateRead.advance (s : TarStateRead) (bytes : Nat) : TarStateRead :=
  { bufferSize := s.bufferSize, left := s.left - bytes,
    completed := s.completed + bytes, chunk := s.chunk,
    offset := s.offset + bytes }

/-- `TarStateRead::next`: hand out the filled chunk and allocate a fresh
one of `min(buffer_size/512, left/512) + (1 if left % 512 > 0)` pages. -/
def TarStateRead.next (s : TarStateRead) : TarChunk × TarStateRead :=
  let left := s.left / 512
  let available := s.bufferSize / 512
  let pages := min available left
  let pages := pages + (if s.left % 512 > 0 then 1 else 0)
  (s.chunk,
    { bufferSize := s.bufferSize, left := s.left, completed := s.completed,
      chunk := TarChunk.dataChunk pages, offset := 0 })

/-! ## The tar state machine (`TarState`, `TarStream`)

The six states of `TarState`; the `Open` and `Header` states hold pending
futures in the source, modelled here by the data those futures capture.
I/O completions are supplied as explicit `TarEvent`s; a `Poll::Pending`
result repeats the same state and is therefore not modelled as a separate
event. -/

/-- The six states of `TarState`. -/
inductive TarState where
  | init
  | opn (bufferSize : Nat) (entry : TarEntry)
  | header (bufferSize : Nat) (path : List Nat)
  | read (s : TarStateRead)
  | padding (index : Nat)
  | completed
deriving DecidableEq

/-- `TarStream`: current state, effective buffer size and remaining entry
queue. -/
structure TarStream where
  state : TarState
  bufferSize : Nat
  entries : List TarEntry
deriving DecidableEq

/-- `TarStream::new`: the effective buffer size is
`buffer_size / 512 * 512`. -/
def TarStream.new (entries : List TarEntry) (bufferSize : Nat) : TarStream :=
  { state := TarState.init, bufferSize := bufferSize / 512 * 512,
    entries := entries }

/-- `TarArchive::into_stream`. -/
def TarArchive.intoStream (a : TarArchive) (bufferSize : Nat) : TarStream :=
  TarStream.new a.entries bufferSize

/-- Completion events for the pending I/O of a state: file-open results,
metadata results (mode, mtime and size), and read results carrying the
bytes deposited into the chunk.  `tick` drives the states that perform no
I/O. -/
inductive TarEvent where
  | tick
  | openOk
  | openErr
  | metaOk (mode mtime size : Nat)
  | metaErr
  | readOk (bytes : List Nat)
  | readErr
deriving DecidableEq

/-- An observable produced by one `poll_next`: a chunk item, an error item
(`Poll::Ready(Some(Err(_)))`), or end of stream (`Poll::Ready(None)`). -/
inductive TarItem where
  | chunk (c : TarChunk)
  | fail
  | done
deriving DecidableEq

/-- The outcome of one iteration of the `poll_next` loop body: either a
poll result is returned, or the loop continues (`ContinueLooping`, and the
`NextEntry` transitions, which return to the loop). -/
inductive TarOut where
  | emit (i : TarItem)
  | loop
deriving DecidableEq

/-- The path stored in an entry. -/
def TarEntry.path : TarEntry → List Nat
  | TarEntry.file p => p

/-- One iteration of the `TarStream::poll_next` loop body: dispatch the
current state's `poll`, resolving its pending I/O with `e`.  Mismatched
events (an I/O completion the state is not waiting for) leave the machine
unchanged, like `Poll::Pending`.  `TarState::failed` transitions map to
`(completed, emit fail)`. -/
def stepOnce (m : TarStream) (e : TarEvent) : TarStream × TarOut :=
  match m.state, e with
  | TarState.init, _ =>
    match m.entries with
    | [] => ({ m with state := TarState.padding 0 }, TarOut.loop)
    | ent :: rest =>
      ({ m with state := TarState.opn m.bufferSize ent, entries := rest },
        TarOut.loop)
  | TarState.opn b ent, TarEvent.openOk =>
    ({ m with state := TarState.header b ent.path }, TarOut.loop)
  | TarState.opn _ _, TarEvent.openErr =>
    ({ m with state := TarState.completed }, TarOut.emit TarItem.fail)
  | TarState.header b path, TarEvent.metaOk mode mtime size =>
    ({ m with state := TarState.read (TarStateRead.new b size) },
      TarOut.emit (TarItem.chunk
        (TarChunk.header path (headerWrite path mode size mtime))))
  | TarState.header _ _, TarEvent.metaErr =>
    ({ m with state := TarState.completed }, TarOut.emit TarItem.fail)
  | TarState.read s, TarEvent.readOk bytes =>
    if s.chunk.offsetOk s.offset then
      let chunk := match s.chunk with
        | TarChunk.data buf => TarChunk.data (spliceAt buf s.offset bytes)
        | c => c
      let adv := TarStateRead.advance { s with chunk := chunk } bytes.length
      if adv.left = 0 then
        ({ m with state := TarState.init }, TarOut.emit (TarItem.chunk adv.chunk))
      else if adv.offset = adv.chunk.len then
        let n := adv.next
        ({ m with state := TarState.read n.2 }, TarOut.emit (TarItem.chunk n.1))
      else
        ({ m with state := TarState.read adv }, TarOut.loop)
    else
      ({ m with state := TarState.completed }, TarOut.emit TarItem.fail)
  | TarState.read _, TarEvent.readErr =>
    ({ m with state := TarState.completed }, TarOut.emit TarItem.fail)
  | TarState.padding index, _ =>
    if index ≤ 1 then
      ({ m with state := TarState.padding (index + 1) },
        TarOut.emit (TarItem.chunk (TarChunk.padding index)))
    else
      ({ m with state := TarState.completed }, TarOut.emit TarItem.done)
  | TarState.completed, _ => (m, TarOut.emit TarItem.done)
  | _, _ => (m, TarOut.loop)

/-- Drive the stream with a schedule of events, collecting the observables
in order. -/
def TarStream.run : TarStream → List TarEvent → List TarItem
  | _, [] => []
  | m, e :: es =>
    match stepOnce m e with
    | (m2, TarOut.loop) => TarStream.run m2 es
    | (m2, TarOut.emit i) => i :: TarStream.run m2 es

/-! ## Docker errors and the typed client (`src/etl0/src/docker`)

Only the pieces the status-mapping claims need: the error taxonomy is
collapsed to the kinds that flow through `containers_start`, and the
response payload operations (`into_bytes`, `into_error`) are supplied as
result inputs, since their outcome depends on the wire. -/

/-- `ErrorResponse`: the daemon's `{ "message": … }` envelope. -/
structure ErrorResponse where
  message : String
deriving DecidableEq

/-- The `DockerError` kinds reachable from `containers_start`. -/
inductive DockerError where
  | statusFailed (status : Nat)
  | responseFailed
  | connectionFailed
  | tokioFailed
  | deserializationFailed
deriving DecidableEq

/-- `StatusCode::is_success()`: status in `200..=299`. -/
def isSuccess (status : Nat) : Bool :=
  decide (200 ≤ status) && decide (status ≤ 299)

/-- `DockerConnection::execute`: a non-2xx status raises
`StatusFailed(status)` carrying the response; a 2xx status hands the
response through.  The status stands for the response here. -/
def dockerExecute (status : Nat) : Except DockerError Nat :=
  if isSuccess status then Except.ok status
  else Except.error (DockerError.statusFailed status)

/-- `ContainerStart`: the outcome variants of `containers_start`. -/
inductive ContainerStart where
  | succeeded
  | alreadyStarted
  | noSuchContainer (e : ErrorResponse)
  | serverError (e : ErrorResponse)
deriving DecidableEq

/-- The status-mapping body of `DockerClient::containers_start`, given the
result of `connection.post` (a 2xx response or an error), the result of
`response.into_bytes()` on the success path and the result of
`response.into_error()` on the 404/500 paths. -/
def containersStart (post : Except DockerError Nat)
    (intoBytes : Except DockerError Unit)
    (intoError : Except DockerError ErrorResponse) :
    Except DockerError ContainerStart :=
  match post with
  | Except.ok _ =>
    match intoBytes with
    | Except.ok _ => Except.ok ContainerStart.succeeded
    | Except.error e => Except.error e
  | Except.error (DockerError.statusFailed status) =>
    match status with
    | 304 => Except.ok ContainerStart.alreadyStarted
    | 404 =>
      match intoError with
      | Except.ok e => Except.ok (ContainerStart.noSuchContainer e)
      | Except.error e => Except.error e
    | 500 =>
      match intoError with
      | Except.ok e => Except.ok (ContainerStart.serverError e)
      | Except.error e => Except.error e
    | _ => Except.error (DockerError.statusFailed status)
  | Except.error e => Except.error e

/-- `containers_start` for a response with the given HTTP status: the post
result is `execute`'s classification of that status. -/
def containersStartOnStatus (status : Nat)
    (intoBytes : Except DockerError Unit)
    (intoError : Except DockerError ErrorResponse) :
    Except DockerError ContainerStart :=
  containersStart (dockerExecute status) intoBytes intoError

/-! ## The streaming buffer (`src/etl0/src/docker/stream/common.rs`) -/

/-- `DockerStreamBuffer`: a backing vector and the logical length
`position`. -/
structure DockerStreamBuffer where
  position : Nat
  data : List Nat
deriving DecidableEq

/-- `DockerStreamBuffer::len`. -/
def DockerStreamBuffer.len (b : DockerStreamBuffer) : Nat := b.position

/-- The in-bounds invariant: the logical length never exceeds the backing
vector's length. -/
def DockerStreamBuffer.inv (b : DockerStreamBuffer) : Prop :=
  b.position ≤ b.data.length

instance (b : DockerStreamBuffer) : Decidable b.inv := by
  unfold DockerStreamBuffer.inv; infer_instance

/-- `DockerStreamBuffer::append`: grow the backing vector to
`position + data.len()` if needed, copy the new bytes at `position`, and
advance `position`. -/
def DockerStreamBuffer.append (b : DockerStreamBuffer) (d : List Nat) :
    DockerStreamBuffer :=
  let expected := b.position + d.length
  let grown :=
    if b.data.length < expected then
      b.data ++ List.replicate (expected - b.data.length) 0
    else b.data
  { position := expected,
    data := grown.take b.position ++ d ++ grown.drop expected }

/-- `DockerStreamBuffer::consume`: `copy_within(count..position, 0)` then
decrement `position`; the source panics when `count > position` (or
`position` exceeds the backing length), which the claims rule out. -/
def DockerStreamBuffer.consume (b : DockerStreamBuffer) (count : Nat) :
    DockerStreamBuffer :=
  { position := b.position - count,
    data := (b.data.drop count).take (b.position - count)
      ++ b.data.drop (b.position - count) }

/-- `impl AsRef<[u8]>`: the logical content `data[0..position]`. -/
def DockerStreamBuffer.asRef (b : DockerStreamBuffer) : List Nat :=
  b.data.take b.position

/-- The scaffold's initial buffer: `vec![0; 65536]` with `position` 0. -/
def initialBuffer : DockerStreamBuffer :=
  { position := 0, data := List.replicate 65536 0 }

/-! ## UTF-8 validity (`std::str::from_utf8`)

The log codec decodes each frame payload with `from_utf8`; its outcome is
determined by standard UTF-8 validity, modelled here byte by byte
(2-byte leads `C2..DF`; 3-byte leads `E0..EF` with the `E0`/`ED` range
restrictions; 4-byte leads `F0..F4` with the `F0`/`F4` restrictions). -/

/-- A UTF-8 continuation byte: `80..=BF`. -/
def isCont (b : Nat) : Bool :=
  decide (128 ≤ b) && decide (b ≤ 191)

/-- UTF-8 validity of a byte sequence. -/
def validUtf8 : List Nat → Bool
  | [] => true
  | b :: rest =>
    if b ≤ 127 then validUtf8 rest
    else if b < 194 then false
    else if b ≤ 223 then
      match rest with
      | c1 :: r => isCont c1 && validUtf8 r
      | [] => false
    else if b ≤ 239 then
      match rest with
      | c1 :: c2 :: r =>
        (if b = 224 then decide (160 ≤ c1) && decide (c1 ≤ 191)
         else if b = 237 then decide (128 ≤ c1) && decide (c1 ≤ 159)
         else isCont c1) && isCont c2 && validUtf8 r
      | _ => false
    else if b ≤ 244 then
      match rest with
      | c1 :: c2 :: c3 :: r =>
        (if b = 240 then decide (144 ≤ c1) && decide (c1 ≤ 191)
         else if b = 244 then decide (128 ≤ c1) && decide (c1 ≤ 143)
         else isCont c1) && isCont c2 && isCont c3 && validUtf8 r
      | _ => false
    else false

/-! ## The log codec (`ContainerLogsStreamHandler::extract`) -/

/-- `u32::from_be_bytes([a, b, c, d])`. -/
def be32 (a b c d : Nat) : Nat :=
  ((a * 256 + b) * 256 + c) * 256 + d

/-- A log item: the decoded string (as its UTF-8 bytes) or a
`Utf8ParsingFailed` error. -/
abbrev LogItem := Except Unit (List Nat)

/-- The scanning loop of the log codec, indexed like the source: walk
`data` from `current`, taking an 8-byte header `[id, 0, 0, 0, size_be]`
and `size` payload bytes per frame; stop when either is incomplete.  A
payload that fails UTF-8 decoding is pushed as an error, the frame is
still consumed, and the loop breaks.  Returns the items and the final
`current` (the count later passed to `consume`).  The fuel argument is
structural; `data.length + 1` suffices since every iteration advances
`current` by at least 8. -/
def logLoop : Nat → List Nat → Nat → List LogItem × Nat
  | 0, _, current => ([], current)
  | fuel + 1, data, current =>
    if current < data.length then
      if current + 8 > data.length then ([], current)
      else
        let size := be32 (data.getD (current + 4) 0) (data.getD (current + 5) 0)
          (data.getD (current + 6) 0) (data.getD (current + 7) 0)
        let start := current + 8
        let stop := start + size
        if stop > data.length then ([], current)
        else
          let payload := (data.drop start).take size
          if validUtf8 payload then
            let r := logLoop fuel data stop
            (Except.ok payload :: r.1, r.2)
          else ([Except.error ()], stop)
    else ([], current)

/-- `ContainerLogsStreamHandler::extract`: run the loop over the buffer
content and consume the scanned prefix. -/
def logExtract (b : DockerStreamBuffer) : List LogItem × DockerStreamBuffer :=
  let r := logLoop (b.len + 1) b.asRef 0
  (r.1, if r.2 > 0 then b.consume r.2 else b)

/-- Feeding the log codec: append each chunk in turn, extracting after
every append (the scaffold's data-frame path), and concatenate the
produced items. -/
def logFeed : DockerStreamBuffer → List (List Nat) → List LogItem × DockerStreamBuffer
  | b, [] => ([], b)
  | b, d :: ds =>
    let r := logExtract (b.append d)
    let rest := logFeed r.2 ds
    (r.1 ++ rest.1, rest.2)

/-! ## The image-pull codec (`ImageCreateStreamHandler::extract`)

JSON deserialisation (`serde_json::from_slice` into the closed
`ImageCreateStreamItem` schema) is abstracted as a `parse` parameter: the
framing claims hold for every record decoder. -/

/-- `ImageCreateStreamProgress`. -/
structure ImageCreateStreamProgress where
  current : Option Nat
  total : Option Nat
deriving DecidableEq

/-- `ImageCreateStreamItem`: the optional fields of one decoded record. -/
structure ImageCreateStreamItem where
  status : Option String
  id : Option String
  error : Option String
  errorDetail : Option ErrorResponse
  progress : Option String
  progressDetail : Option ImageCreateStreamProgress
deriving DecidableEq

/-- `ImageCreateStreamLine`: the classified variants. -/
inductive ImageCreateStreamLine where
  | status (id status : String)
  | info (status : String)
  | progress (id status info : String) (total current : Nat)
  | error (message detail : String)
  | raw (item : ImageCreateStreamItem)
deriving DecidableEq

/-- `ImageCreateStreamLine::from` on a decoded record: the if-let chain
classifying a record, in source order. -/
def lineFrom (item : ImageCreateStreamItem) : ImageCreateStreamLine :=
  match item.error, item.errorDetail with
  | some message, some detail =>
    ImageCreateStreamLine.error message detail.message
  | _, _ =>
    match item.id, item.status, item.progress, item.progressDetail with
    | some id, some status, some progress,
        some (ImageCreateStreamProgress.mk (some current) (some total)) =>
      ImageCreateStreamLine.progress id status progress total current
    | _, _, _, _ =>
      match item.id, item.status with
      | some id, some status => ImageCreateStreamLine.status id status
      | _, _ =>
        match item.status with
        | some status => ImageCreateStreamLine.info status
        | none => ImageCreateStreamLine.raw item

/-- `ImageCreateStreamLine::from` on a `DockerResult`: errors pass
through. -/
def lineFromResult (r : Except Unit ImageCreateStreamItem) :
    Except Unit ImageCreateStreamLine :=
  match r with
  | Except.error e => Except.error e
  | Except.ok item => Except.ok (lineFrom item)

/-- The scanning loop of the image-pull codec, indexed like the source:
the inner `for` scans `i` over `current..length-1` looking for a CRLF
pair; on a match the record `data[current..i]` is parsed and pushed,
`current` jumps past the pair, and the scan continues from `i + 1`.
Returns the parsed records and the final `current`.  Fuel is structural;
`data.length + 1` suffices since `i` advances every iteration. -/
def imageLoop (parse : List Nat → Except Unit ImageCreateStreamItem) :
    Nat → List Nat → Nat → Nat → List (Except Unit ImageCreateStreamItem) × Nat
  | 0, _, _, current => ([], current)
  | fuel + 1, data, i, current =>
    if i < data.length - 1 then
      if data.getD i 0 = 13 && data.getD (i + 1) 0 = 10 then
        let record := (data.drop current).take (i - current)
        let r := imageLoop parse fuel data (i + 1) (i + 2)
        (parse record :: r.1, r.2)
      else imageLoop parse fuel data (i + 1) current
    else ([], current)

/-- `ImageCreateStreamHandler::extract`: run the loop, consume the scanned
prefix, classify each parsed record. -/
def imageExtract (parse : List Nat → Except Unit ImageCreateStreamItem)
    (b : DockerStreamBuffer) :
    List (Except Unit ImageCreateStreamLine) × DockerStreamBuffer :=
  let r := imageLoop parse (b.len + 1) b.asRef 0 0
  (r.1.map lineFromResult, if r.2 > 0 then b.consume r.2 else b)

/-- Feeding the image-pull codec chunk by chunk. -/
def imageFeed (parse : List Nat → Except Unit ImageCreateStreamItem) :
    DockerStreamBuffer → List (List Nat) →
    List (Except Unit ImageCreateStreamLine) × DockerStreamBuffer
  | b, [] => ([], b)
  | b, d :: ds =>
    let r := imageExtract parse (b.append d)
    let rest := imageFeed parse r.2 ds
    (r.1 ++ rest.1, rest.2)

/-! ## Claim-side definitions and proof-level reformulations

`lineClassSpec` restates the classification *claim* (spec §4.4) for
comparison with `lineFrom`.  `logF`/`imageF` are suffix-structured
reformulations of the two scanning loops, proved equivalent to the
indexed loops below; the framing algebra is established on them. -/

/-- The five classification kinds. -/
inductive LineKind where
  | error
  | progress
  | status
  | info
  | raw
deriving DecidableEq

/-- The kind of a classified line. -/
def ImageCreateStreamLine.kind : ImageCreateStreamLine → LineKind
  | ImageCreateStreamLine.error _ _ => LineKind.error
  | ImageCreateStreamLine.progress _ _ _ _ _ => LineKind.progress
  | ImageCreateStreamLine.status _ _ => LineKind.status
  | ImageCreateStreamLine.info _ => LineKind.info
  | ImageCreateStreamLine.raw _ => LineKind.raw

/-- The classification rule as the claim states it: Error when both
`error` and `errorDetail` are present; else Progress when `id`, `status`,
`progress` and both `progressDetail.current` and `progressDetail.total`
are present; else Status when `id` and `status` are present; else Info
when `status` is present; else Raw. -/
def lineClassSpec (item : ImageCreateStreamItem) : LineKind :=
  if item.error.isSome && item.errorDetail.isSome then LineKind.error
  else if item.id.isSome && item.status.isSome && item.progress.isSome &&
      (match item.progressDetail with
       | some p => p.current.isSome && p.total.isSome
       | none => false) then
    LineKind.progress
  else if item.id.isSome && item.status.isSome then LineKind.status
  else if item.status.isSome then LineKind.info
  else LineKind.raw

/-- Whether an item is an error item. -/
def isErrItem {α : Type} : Except Unit α → Bool
  | Except.error _ => true
  | Except.ok _ => false

/-- No item of the list is an error item. -/
def errFree {α : Type} (l : List (Except Unit α)) : Bool :=
  l.all (fun x => !isErrItem x)

/-- Byte length of an emitted tar item (0 for error and end items). -/
def TarItem.size : TarItem → Nat
  | TarItem.chunk c => c.len
  | _ => 0

/-- The log-codec loop restated on the unconsumed suffix: the returned
count is relative to the suffix's start. -/
def logF : Nat → List Nat → List LogItem × Nat
  | 0, _ => ([], 0)
  | fuel + 1, s =>
    if s.length < 8 then ([], 0)
    else
      let size := be32 (s.getD 4 0) (s.getD 5 0) (s.getD 6 0) (s.getD 7 0)
      if 8 + size > s.length then ([], 0)
      else
        let payload := (s.drop 8).take size
        if validUtf8 payload then
          let r := logF fuel (s.drop (8 + size))
          (Except.ok payload :: r.1, 8 + size + r.2)
        else ([Except.error ()], 8 + size)

/-- `logF` with canonical fuel. -/
def logFc (s : List Nat) : List LogItem × Nat :=
  logF (s.length + 1) s

/-- Index of the first CRLF pair of a byte list, if any. -/
def findCRLF : List Nat → Option Nat
  | a :: b :: rest =>
    if a = 13 ∧ b = 10 then some 0 else (findCRLF (b :: rest)).map (· + 1)
  | _ => none

/-- The image-codec loop restated on the unconsumed suffix: split off
CRLF-terminated records while any remain. -/
def imageF : Nat → List Nat → List (List Nat) × Nat
  | 0, _ => ([], 0)
  | fuel + 1, s =>
    match findCRLF s with
    | none => ([], 0)
    | some j =>
      let r := imageF fuel (s.drop (j + 2))
      (s.take j :: r.1, j + 2 + r.2)

/-- `imageF` with canonical fuel. -/
def imageFc (s : List Nat) : List (List Nat) × Nat :=
  imageF (s.length + 1) s

/-- A CRLF pair starting at absolute index `k` of `data`, entirely within
the scanned range (`k + 1 < data.length`, the inner loop's bound). -/
def pairAt (data : List Nat) (k : Nat) : Prop :=
  k + 1 < data.length ∧ data.getD k 0 = 13 ∧ data.getD (k + 1) 0 = 10

/-- A produced item that is a chunk but not a padding chunk (what a
stream may emit before the terminal padding pair). -/
def cleanItem (x : TarItem) : Prop :=
  ∃ c, x = TarItem.chunk c ∧ ∀ i, c ≠ TarChunk.padding i

/-- The states in which the stream is still producing entries (neither
padding nor completed). -/
def TarState.working : TarState → Prop
  | TarState.init => True
  | TarState.opn _ _ => True
  | TarState.header _ _ => True
  | TarState.read _ => True
  | TarState.padding _ => False
  | TarState.completed => False

/-! ## C8: classification of image-pull records -/

/-- C8: every decoded image-pull record is classified into exactly one
variant, tested in order Error (both `error` and `errorDetail` present),
Progress (`id`, `status`, `progress`, `progressDetail.current` and
`progressDetail.total` present), Status (`id` and `status`), Info
(`status`), else Raw: `lineFrom` realizes the claimed decision order. -/
theorem lineFrom_kind_eq_lineClassSpec (item : ImageCreateStreamItem) :
    (lineFrom item).kind = lineClassSpec item := by
  obtain ⟨st, id, err, ed, pr, pd⟩ := item
  cases err <;> cases ed <;> cases id <;> cases st <;> cases pr <;> cases pd <;>
    first
      | rfl
      | (rename_i p
         obtain ⟨cur, tot⟩ := p
         cases cur <;> cases tot <;> rfl)

/-! ## C4: status mapping of `containers_start` -/

/-- C4: a 2xx response (with its body drained) yields `Succeeded`; 304 is
re-classified from the `StatusFailed` channel as `AlreadyStarted` with no
body decoded; 404 and 500 carry the decoded error body as
`NoSuchContainer` and `ServerError`; every other non-2xx status surfaces
as a `StatusFailed` error with that status. -/
theorem containersStart_status_mapping (s : Nat)
    (br : Except DockerError Unit) (er : Except DockerError ErrorResponse)
    (e : ErrorResponse) :
    (isSuccess s = true →
      containersStartOnStatus s (Except.ok ()) er
        = Except.ok ContainerStart.succeeded)
    ∧ containersStartOnStatus 304 br er
        = Except.ok ContainerStart.alreadyStarted
    ∧ containersStartOnStatus 404 br (Except.ok e)
        = Except.ok (ContainerStart.noSuchContainer e)
    ∧ containersStartOnStatus 500 br (Except.ok e)
        = Except.ok (ContainerStart.serverError e)
    ∧ (isSuccess s = false → s ≠ 304 → s ≠ 404 → s ≠ 500 →
      containersStartOnStatus s br er
        = Except.error (DockerError.statusFailed s)) := by
  refine ⟨?_, rfl, rfl, rfl, ?_⟩
  · intro h
    simp [containersStartOnStatus, dockerExecute, h, containersStart]
  · intro h h304 h404 h500
    have hex : dockerExecute s = Except.error (DockerError.statusFailed s) := by
      simp [dockerExecute, h]
    rw [containersStartOnStatus, hex]
    unfold containersStart
    split
    · rename_i heq; cases heq
    · rename_i status heq
      cases heq
      split
      · exact absurd rfl h304
      · exact absurd rfl h404
      · exact absurd rfl h500
      · rfl
    · rename_i e2 heq hne
      cases hne
      exact (heq s rfl).elim

/-- Witness for C4 at concrete statuses 204 and 418. -/
theorem containersStart_status_mapping_witness :
    containersStartOnStatus 204 (Except.ok ())
        (Except.error DockerError.responseFailed)
      = Except.ok ContainerStart.succeeded
    ∧ containersStartOnStatus 418 (Except.ok ())
        (Except.error DockerError.responseFailed)
      = Except.error (DockerError.statusFailed 418) :=
  ⟨(containersStart_status_mapping 204 (Except.ok ())
      (Except.error DockerError.responseFailed) (ErrorResponse.mk "")).1 (by decide),
   (containersStart_status_mapping 418 (Except.ok ())
      (Except.error DockerError.responseFailed) (ErrorResponse.mk "")).2.2.2.2
      (by decide) (by decide) (by decide) (by decide)⟩

/-! ## C3: effective buffer size -/

/-- C3 counterexample: for desired size 511 the effective buffer size is
`511 / 512 * 512 = 0`, not `max 512 (512 * floor(511/512)) = 512`. -/
theorem effectiveBuffer_counterexample :
    ¬ ((TarArchive.intoStream (TarArchive.mk []) 511).bufferSize
        = max 512 (512 * (511 / 512))) := by decide

/-- C3 (amended): the effective buffer size is `512 * floor(B/512)` with
no minimum applied — a multiple of 512 and at most `B`; the claimed
`max 512 …` form holds only for `B ≥ 512`. -/
theorem effectiveBuffer_amended (a : TarArchive) (B : Nat) :
    (a.intoStream B).bufferSize = 512 * (B / 512)
    ∧ (a.intoStream B).bufferSize ≤ B
    ∧ (512 ≤ B →
        (a.intoStream B).bufferSize = max 512 (512 * (B / 512))) := by
  refine ⟨Nat.mul_comm _ _, Nat.div_mul_le_self B 512, ?_⟩
  intro h
  have h1 : 1 ≤ B / 512 := (Nat.one_le_div_iff (by norm_num)).mpr h
  have h2 : 512 ≤ 512 * (B / 512) := by
    calc 512 = 512 * 1 := by norm_num
    _ ≤ 512 * (B / 512) := Nat.mul_le_mul_left 512 h1
  show B / 512 * 512 = _
  rw [max_eq_right h2, Nat.mul_comm]

/-- Witness for C3 (amended) at `B = 4096`. -/
theorem effectiveBuffer_amended_witness :
    (TarArchive.intoStream (TarArchive.mk []) 4096).bufferSize
      = max 512 (512 * (4096 / 512)) :=
  (effectiveBuffer_amended (TarArchive.mk []) 4096).2.2 (by decide)

/-! ## C2: data-chunk allocation -/

/-- C2 counterexample: for a 512-byte file and buffer size 4096 the
initial allocation is `min(8, 1) + 1 = 2` pages (1024 bytes), not the
claimed `min(4096/512, ceil(512/512)) = 1` page. -/
theorem allocation_counterexample :
    ¬ ((TarStateRead.new 4096 512).chunk.len
        = 512 * min (4096 / 512) ((512 + 511) / 512)) := by decide

/-- C2 (amended): the initial allocation is
`min(B/512, floor(S/512)) + (1 if S > 0)` pages and every re-allocation is
`min(B/512, floor(left/512)) + (1 if left % 512 > 0)` pages; neither
matches `min(B/512, ceil(·/512))` in general. -/
theorem allocation_formulas (B L : Nat) (s : TarStateRead) :
    (TarStateRead.new B L).chunk.len
      = 512 * (min (B / 512) (L / 512) + if L > 0 then 1 else 0)
    ∧ s.next.2.chunk.len
      = 512 * (min (s.bufferSize / 512) (s.left / 512)
          + if s.left % 512 > 0 then 1 else 0)
    ∧ s.next.1 = s.chunk
    ∧ (TarStateRead.new B L).left = L := by
  refine ⟨?_, ?_, rfl, rfl⟩ <;>
    simp [TarStateRead.new, TarStateRead.next, TarChunk.dataChunk,
      TarChunk.len, Nat.mul_comm]

/-! ## C1: bytes emitted per file -/

/-- C1 (failing input): one 512-byte file, buffer size 4096.  The initial
allocation is two pages, so the stream emits a 1024-byte data chunk after
the 512-byte header — `512 + 1024` bytes for the file, while the claim
requires `512 + ceil(512/512)*512 = 1024` in total. -/
theorem tar_run_512_file_emits_1024_data :
    ((TarStream.run (TarStream.new [TarEntry.file [97]] 4096)
        [TarEvent.tick, TarEvent.openOk, TarEvent.metaOk 420 0 512,
         TarEvent.readOk (List.replicate 512 7), TarEvent.tick,
         TarEvent.tick, TarEvent.tick, TarEvent.tick]).get? 1).map
      TarItem.size = some 1024
    ∧ 512 + 1024 ≠ 512 + (512 + 511) / 512 * 512 := by
  constructor
  · rfl
  · decide

/-! ## C6: the checksum field -/

theorem length_foldl_set (l : List Nat) (f g : Nat → Nat) (h : List Nat) :
    (l.foldl (fun acc i => acc.set (f i) (g i)) h).length = h.length := by
  induction l generalizing h with
  | nil => rfl
  | cons a t ih => rw [List.foldl_cons, ih, List.length_set]

theorem getElem?_foldl_set_ne (l : List Nat) (f g : Nat → Nat) (h : List Nat)
    (j : Nat) (hj : ∀ i ∈ l, f i ≠ j) :
    (l.foldl (fun acc i => acc.set (f i) (g i)) h)[j]? = h[j]? := by
  induction l generalizing h with
  | nil => rfl
  | cons a t ih =>
    rw [List.foldl_cons, ih _ (fun i hi => hj i (List.mem_cons_of_mem a hi)),
      List.getElem?_set_ne (hj a (List.mem_cons_self a t))]

theorem writeBytes_length (h : List Nat) (o L : Nat) (b : List Nat) :
    (writeBytes h o L b).length = h.length :=
  length_foldl_set (List.range L) (fun i => o + i) (fun i => b.getD i 0) h

theorem writeOctal_length (h : List Nat) (o L v : Nat) :
    (writeOctal h o L v).length = h.length := by
  simp only [writeOctal, List.length_set]
  exact length_foldl_set (List.range (L - 1)) (fun i => o + (L - 2 - i)) _ h

theorem writeBytes_succ (h : List Nat) (o L : Nat) (b : List Nat) :
    writeBytes h o (L + 1) b = (writeBytes h o L b).set (o + L) (b.getD L 0) := by
  simp [writeBytes, List.range_succ]

theorem writeBytes_getElem?_out (h : List Nat) (o L : Nat) (b : List Nat)
    (j : Nat) (hj : j < o ∨ o + L ≤ j) :
    (writeBytes h o L b)[j]? = h[j]? := by
  refine getElem?_foldl_set_ne (List.range L) (fun i => o + i) _ h j ?_
  intro i hi
  have := List.mem_range.mp hi
  show o + i ≠ j
  rcases hj with hj | hj <;> omega

theorem writeOctal_getElem?_out (h : List Nat) (o L v : Nat) (hL : 1 ≤ L)
    (j : Nat) (hj : j < o ∨ o + L ≤ j) :
    (writeOctal h o L v)[j]? = h[j]? := by
  simp only [writeOctal]
  rw [List.getElem?_set_ne (by rcases hj with hj | hj <;> omega)]
  refine getElem?_foldl_set_ne (List.range (L - 1)) (fun i => o + (L - 2 - i)) _ h j ?_
  intro i hi
  have := List.mem_range.mp hi
  show o + (L - 2 - i) ≠ j
  rcases hj with hj | hj <;> omega

theorem writeBytes_getElem?_in (h : List Nat) (o L : Nat) (b : List Nat)
    (j : Nat) (hj : j < L) (hb : o + L ≤ h.length) :
    (writeBytes h o L b)[o + j]? = some (b.getD j 0) := by
  induction L with
  | zero => omega
  | succ L ih =>
    rw [writeBytes_succ]
    rcases Nat.lt_or_ge j L with hlt | hge
    · rw [List.getElem?_set_ne (by omega)]
      exact ih (by omega) (by omega)
    · have hjL : j = L := by omega
      subst hjL
      exact List.getElem?_set_eq_of_lt _ (by rw [writeBytes_length]; omega)

theorem writeBytes_overwrite (h : List Nat) (o L : Nat) (b1 b2 : List Nat)
    (hb : o + L ≤ h.length) :
    writeBytes (writeBytes h o L b1) o L b2 = writeBytes h o L b2 := by
  apply List.ext_getElem?
  intro n
  rcases Nat.lt_or_ge n o with hlt | hge
  · rw [writeBytes_getElem?_out _ _ _ _ _ (Or.inl hlt),
      writeBytes_getElem?_out _ _ _ _ _ (Or.inl hlt),
      writeBytes_getElem?_out _ _ _ _ _ (Or.inl hlt)]
  · rcases Nat.lt_or_ge n (o + L) with hlt2 | hge2
    · obtain ⟨j, hj, rfl⟩ : ∃ j, j < L ∧ n = o + j := ⟨n - o, by omega, by omega⟩
      rw [writeBytes_getElem?_in _ _ _ _ _ hj (by rw [writeBytes_length]; omega),
        writeBytes_getElem?_in _ _ _ _ _ hj hb]
    · rw [writeBytes_getElem?_out _ _ _ _ _ (Or.inr hge2),
        writeBytes_getElem?_out _ _ _ _ _ (Or.inr hge2),
        writeBytes_getElem?_out _ _ _ _ _ (Or.inr hge2)]

theorem writeBytes_over_writeOctal (h : List Nat) (o L v : Nat) (b : List Nat)
    (hL : 1 ≤ L) (hb : o + L ≤ h.length) :
    writeBytes (writeOctal h o L v) o L b = writeBytes h o L b := by
  apply List.ext_getElem?
  intro n
  rcases Nat.lt_or_ge n o with hlt | hge
  · rw [writeBytes_getElem?_out _ _ _ _ _ (Or.inl hlt),
      writeBytes_getElem?_out _ _ _ _ _ (Or.inl hlt),
      writeOctal_getElem?_out _ _ _ _ hL _ (Or.inl hlt)]
  · rcases Nat.lt_or_ge n (o + L) with hlt2 | hge2
    · obtain ⟨j, hj, rfl⟩ : ∃ j, j < L ∧ n = o + j := ⟨n - o, by omega, by omega⟩
      rw [writeBytes_getElem?_in _ _ _ _ _ hj (by rw [writeOctal_length]; omega),
        writeBytes_getElem?_in _ _ _ _ _ hj hb]
    · rw [writeBytes_getElem?_out _ _ _ _ _ (Or.inr hge2),
        writeBytes_getElem?_out _ _ _ _ _ (Or.inr hge2),
        writeOctal_getElem?_out _ _ _ _ hL _ (Or.inr hge2)]

theorem writeOctal_fieldSlice (h : List Nat) (c : Nat) (hlen : h.length = 512) :
    fieldSlice (writeOctal h 148 8 c) 148 8 = octalFieldBytes 8 c := by
  have hr : List.range 7 = [0, 1, 2, 3, 4, 5, 6] := rfl
  have hlen2 : ∀ n : Nat, n < 512 →
      (writeOctal h 148 8 c)[n]? =
        ((((((((h.set 154 ((octString c).getD ((octString c).length - 1) 48)).set 153
          ((octString c).getD ((octString c).length - 2) 48)).set 152
          ((octString c).getD ((octString c).length - 3) 48)).set 151
          ((octString c).getD ((octString c).length - 4) 48)).set 150
          ((octString c).getD ((octString c).length - 5) 48)).set 149
          ((octString c).getD ((octString c).length - 6) 48)).set 148
          ((octString c).getD ((octString c).length - 7) 48)).set 155 0)[n]? := by
    intro n hn
    simp only [writeOctal, hr, List.foldl_cons, List.foldl_nil]
    norm_num [Nat.sub_sub]
  apply List.ext_getElem?
  intro n
  simp only [fieldSlice, List.getElem?_take, List.getElem?_drop]
  rcases Nat.lt_or_ge n 8 with hn | hn
  · have h148 : 148 + n < 512 := by omega
    rw [if_pos hn, hlen2 (148 + n) h148]
    have hsetlen : ∀ m : Nat, m < 512 →
        ∀ (l : List Nat), l.length = 512 → ∀ (a : Nat), (l.set m a).length = 512 := by
      intro m _ l hl a
      rw [List.length_set, hl]
    interval_cases n <;>
      simp [List.getElem?_set_ne, List.getElem?_set_eq_of_lt, List.length_set,
        hlen, octalFieldBytes, hr, Nat.sub_sub]
  · rw [if_neg (by omega)]
    have : (octalFieldBytes 8 c).length = 8 := by
      simp [octalFieldBytes]
    rw [List.getElem?_eq_none (by omega)]

/-- C6: in every emitted header, the checksum field (bytes 148–155) holds
the octal rendering of the unsigned sum of all 512 header bytes computed
with the checksum field holding eight ASCII spaces: overwriting the final
header's checksum field with spaces recovers exactly the header the sum
was taken over. -/
theorem header_chksum_field (path : List Nat) (mode size mtime : Nat) :
    fieldSlice (headerWrite path mode size mtime) 148 8
      = octalFieldBytes 8 (calculateChecksum
          (writeBytes (headerWrite path mode size mtime) 148 8 spaces8)) := by
  have hpre : (writeTypeFlag (writeMagic (writeMtime (writeSize (writeGid
      (writeUid (writeMode (writeName (List.replicate 512 0) path) mode) 0) 0)
      size) mtime))).length = 512 := by
    simp [writeTypeFlag, writeMagic, writeMtime, writeSize, writeGid, writeUid,
      writeMode, writeName, writeBytes_length, writeOctal_length]
  simp only [headerWrite, writeChksum]
  rw [writeBytes_over_writeOctal _ _ _ _ _ (by norm_num)
      (by rw [writeBytes_length, hpre]; norm_num),
    writeBytes_overwrite _ _ _ _ _ (by rw [hpre]; norm_num),
    writeOctal_fieldSlice _ _ (by rw [writeBytes_length, hpre])]

/-! ## Buffer lemmas and C10 -/

theorem append_data_length (b : DockerStreamBuffer) (d : List Nat)
    (hb : b.inv) :
    (b.append d).data.length
      = max b.data.length (b.position + d.length) := by
  have hp : b.position ≤ b.data.length := hb
  simp only [DockerStreamBuffer.append]
  rcases Nat.lt_or_ge b.data.length (b.position + d.length) with hlt | hge
  · rw [if_pos hlt]
    simp [List.length_take, List.length_drop]
    omega
  · rw [if_neg (by omega)]
    simp [List.length_take, List.length_drop]
    omega

theorem append_inv (b : DockerStreamBuffer) (d : List Nat) (hb : b.inv) :
    (b.append d).inv := by
  have h := append_data_length b d hb
  show (b.append d).position ≤ (b.append d).data.length
  rw [h]
  show b.position + d.length ≤ _
  omega

theorem append_len (b : DockerStreamBuffer) (d : List Nat) :
    (b.append d).len = b.len + d.length := rfl

theorem asRef_append (b : DockerStreamBuffer) (d : List Nat) (hb : b.inv) :
    (b.append d).asRef = b.asRef ++ d := by
  have hp : b.position ≤ b.data.length := hb
  simp only [DockerStreamBuffer.append, DockerStreamBuffer.asRef]
  have hgrown : ∀ g : List Nat, b.data.length ≤ g.length →
      b.data.take b.position = g.take b.position →
      (g.take b.position ++ d ++ g.drop (b.position + d.length)).take
        (b.position + d.length) = b.data.take b.position ++ d := by
    intro g hg hgt
    rw [List.append_assoc, List.take_append_eq_append_take]
    have h1 : (g.take b.position).length = b.position := by
      rw [List.length_take]; omega
    rw [List.take_of_length_le (by omega), h1]
    have h2 : b.position + d.length - b.position = d.length := by omega
    rw [h2, List.take_append_eq_append_take, List.take_of_length_le (le_refl d.length),
      Nat.sub_self, List.take_zero, List.append_nil, hgt]
  rcases Nat.lt_or_ge b.data.length (b.position + d.length) with hlt | hge
  · rw [if_pos hlt]
    refine hgrown _ (by simp) ?_
    rw [List.take_append_of_le_length hp]
  · rw [if_neg (by omega)]
    exact hgrown _ (le_refl _) rfl

theorem consume_data_length (b : DockerStreamBuffer) (c : Nat) (hb : b.inv)
    (hc : c ≤ b.position) :
    (b.consume c).data.length = b.data.length := by
  have hp : b.position ≤ b.data.length := hb
  simp only [DockerStreamBuffer.consume]
  simp [List.length_take, List.length_drop]
  omega

theorem consume_inv (b : DockerStreamBuffer) (c : Nat) (hb : b.inv)
    (hc : c ≤ b.position) :
    (b.consume c).inv := by
  show (b.consume c).position ≤ (b.consume c).data.length
  rw [consume_data_length b c hb hc]
  show b.position - c ≤ _
  have hp : b.position ≤ b.data.length := hb
  omega

theorem asRef_consume (b : DockerStreamBuffer) (c : Nat) (hb : b.inv)
    (hc : c ≤ b.position) :
    (b.consume c).asRef = b.asRef.drop c := by
  have hp : b.position ≤ b.data.length := hb
  simp only [DockerStreamBuffer.consume, DockerStreamBuffer.asRef]
  rw [List.drop_take]
  rw [List.take_append_eq_append_take]
  have h1 : ((b.data.drop c).take (b.position - c)).length = b.position - c := by
    rw [List.length_take, List.length_drop]; omega
  rw [h1, List.take_of_length_le (by omega), Nat.sub_self, List.take_zero,
    List.append_nil]

theorem asRef_length (b : DockerStreamBuffer) (hb : b.inv) :
    b.asRef.length = b.len := by
  have hp : b.position ≤ b.data.length := hb
  simp [DockerStreamBuffer.asRef, DockerStreamBuffer.len, List.length_take]
  omega

theorem logLoop_consumed_le (fuel : Nat) :
    ∀ (data : List Nat) (current : Nat), current ≤ data.length →
      (logLoop fuel data current).2 ≤ data.length := by
  induction fuel with
  | zero => intro data current h; exact h
  | succ fuel ih =>
    intro data current h
    simp only [logLoop]
    split
    · split
      · exact h
      · split
        · exact h
        · split
          · exact ih data _ (by omega)
          · omega
    · exact h

theorem imageLoop_consumed_le
    (parse : List Nat → Except Unit ImageCreateStreamItem) (fuel : Nat) :
    ∀ (data : List Nat) (i current : Nat), current ≤ data.length →
      (imageLoop parse fuel data i current).2 ≤ data.length := by
  induction fuel with
  | zero => intro data i current h; exact h
  | succ fuel ih =>
    intro data i current h
    simp only [imageLoop]
    split
    · split
      · exact ih data _ _ (by omega)
      · exact ih data _ _ h
    · exact h

/-! ## Tar machine run lemmas (C7, C9) -/

theorem run_completed (es : List TarEvent) :
    ∀ m : TarStream, m.state = TarState.completed →
      TarStream.run m es = List.replicate es.length TarItem.done := by
  induction es with
  | nil => intro m _; rfl
  | cons e es ih =>
    intro m h
    obtain ⟨st, bs, ents⟩ := m
    have h2 : st = TarState.completed := h
    subst h2
    have hr := ih ⟨TarState.completed, bs, ents⟩ rfl
    cases e <;> simp [TarStream.run, stepOnce, hr, List.replicate_succ]

theorem stepOnce_fail_state (m : TarStream) (e : TarEvent) :
    (stepOnce m e).2 = TarOut.emit TarItem.fail →
    (stepOnce m e).1.state = TarState.completed := by
  obtain ⟨st, bs, ents⟩ := m
  cases st <;> cases e <;> simp only [stepOnce] <;>
    first
      | (intro h; trivial)
      | (intro h; simp at h)
      | (cases ents <;> (intro h; simp at h))
      | (split <;> (intro h; first | trivial | simp at h))
      | (split
         · split
           · intro h; simp at h
           · split <;> (intro h; simp at h)
         · intro _; trivial)

/-- C9: once an I/O error surfaces, every later observable is end of
stream — the error transition lands in `Completed`, which yields
`Ready(None)` forever, so no chunk, error or padding follows the single
error item. -/
theorem tar_error_then_end (m : TarStream) (es : List TarEvent) (i j : Nat)
    (hij : i < j) (hj : j < (TarStream.run m es).length)
    (hi : (TarStream.run m es).get? i = some TarItem.fail) :
    (TarStream.run m es).get? j = some TarItem.done := by
  induction es generalizing m i j with
  | nil => simp [TarStream.run] at hi
  | cons e es ih =>
    rcases hs : stepOnce m e with ⟨m2, out⟩
    cases out with
    | loop =>
      have hr : TarStream.run m (e :: es) = TarStream.run m2 es := by
        simp [TarStream.run, hs]
      rw [hr] at hi hj ⊢
      exact ih m2 i j hij hj hi
    | emit x =>
      have hr : TarStream.run m (e :: es) = x :: TarStream.run m2 es := by
        simp [TarStream.run, hs]
      rw [hr] at hi hj ⊢
      obtain ⟨j2, rfl⟩ : ∃ j2, j = j2 + 1 := ⟨j - 1, by omega⟩
      cases i with
      | zero =>
        have hx : x = TarItem.fail := by
          simpa using hi
        subst hx
        have hm2 : m2.state = TarState.completed := by
          have := stepOnce_fail_state m e (by rw [hs])
          rwa [hs] at this
        have hrun := run_completed es m2 hm2
        rw [hrun]
        simp only [List.length_cons, hrun, List.length_replicate] at hj
        rw [List.get?_eq_getElem?, List.getElem?_cons_succ,
          List.getElem?_replicate, if_pos (by omega)]
      | succ i2 =>
        simp only [List.get?] at hi ⊢
        simp only [List.length_cons] at hj
        exact ih m2 i2 j2 (by omega) (by omega) hi

/-- Witness for C9: a failing file open produces `[fail, done]`; the item
after the error is end of stream. -/
theorem tar_error_then_end_witness :
    (TarStream.run (TarStream.new [TarEntry.file [97]] 512)
        [TarEvent.tick, TarEvent.openErr, TarEvent.tick]).get? 1
      = some TarItem.done :=
  tar_error_then_end (TarStream.new [TarEntry.file [97]] 512)
    [TarEvent.tick, TarEvent.openErr, TarEvent.tick] 0 1
    (by decide) (by decide) (by decide)

theorem run_cons_loop (m : TarStream) (e : TarEvent) (es : List TarEvent)
    (m2 : TarStream) (hs : stepOnce m e = (m2, TarOut.loop)) :
    TarStream.run m (e :: es) = TarStream.run m2 es := by
  simp [TarStream.run, hs]

theorem run_cons_emit (m : TarStream) (e : TarEvent) (es : List TarEvent)
    (m2 : TarStream) (x : TarItem) (hs : stepOnce m e = (m2, TarOut.emit x)) :
    TarStream.run m (e :: es) = x :: TarStream.run m2 es := by
  simp [TarStream.run, hs]

theorem step_padding0 (bs : Nat) (ents : List TarEntry) (e : TarEvent) :
    stepOnce ⟨TarState.padding 0, bs, ents⟩ e
      = (⟨TarState.padding 1, bs, ents⟩,
          TarOut.emit (TarItem.chunk (TarChunk.padding 0))) := by
  cases e <;> rfl

theorem step_padding1 (bs : Nat) (ents : List TarEntry) (e : TarEvent) :
    stepOnce ⟨TarState.padding 1, bs, ents⟩ e
      = (⟨TarState.padding 2, bs, ents⟩,
          TarOut.emit (TarItem.chunk (TarChunk.padding 1))) := by
  cases e <;> rfl

theorem step_padding2 (bs : Nat) (ents : List TarEntry) (e : TarEvent) :
    stepOnce ⟨TarState.padding 2, bs, ents⟩ e
      = (⟨TarState.completed, bs, ents⟩, TarOut.emit TarItem.done) := by
  cases e <;> rfl

theorem run_padding0 (es : List TarEvent) (bs : Nat) (ents : List TarEntry)
    (hdone : TarItem.done ∈ TarStream.run ⟨TarState.padding 0, bs, ents⟩ es) :
    ∃ k, TarStream.run ⟨TarState.padding 0, bs, ents⟩ es
      = TarItem.chunk (TarChunk.padding 0) :: TarItem.chunk (TarChunk.padding 1)
        :: List.replicate (k + 1) TarItem.done := by
  rcases es with _ | ⟨e1, es1⟩
  · simp [TarStream.run] at hdone
  rw [run_cons_emit _ e1 es1 _ _ (step_padding0 bs ents e1)] at hdone ⊢
  rcases es1 with _ | ⟨e2, es2⟩
  · simp [TarStream.run] at hdone
  rw [run_cons_emit _ e2 es2 _ _ (step_padding1 bs ents e2)] at hdone ⊢
  rcases es2 with _ | ⟨e3, es3⟩
  · simp [TarStream.run] at hdone
  rw [run_cons_emit _ e3 es3 _ _ (step_padding2 bs ents e3)] at hdone ⊢
  rw [run_completed es3 _ rfl]
  exact ⟨es3.length, by simp [List.replicate_succ]⟩

theorem run_working (es : List TarEvent) :
    ∀ m : TarStream, m.state.working →
      TarItem.done ∈ TarStream.run m es →
      TarItem.fail ∉ TarStream.run m es →
      ∃ pre k, TarStream.run m es
          = pre ++ TarItem.chunk (TarChunk.padding 0)
            :: TarItem.chunk (TarChunk.padding 1)
            :: List.replicate (k + 1) TarItem.done
        ∧ ∀ x ∈ pre, cleanItem x := by
  induction es with
  | nil =>
    intro m hw hdone hfail
    simp [TarStream.run] at hdone
  | cons e es ih =>
    intro m hw hdone hfail
    obtain ⟨st, bs, ents⟩ := m
    cases st with
    | init =>
      rcases ents with _ | ⟨ent, ents⟩
      · have hstep : stepOnce ⟨TarState.init, bs, []⟩ e
            = (⟨TarState.padding 0, bs, []⟩, TarOut.loop) := by
          cases e <;> rfl
        rw [run_cons_loop _ e es _ hstep] at hdone hfail ⊢
        obtain ⟨k, hk⟩ := run_padding0 es bs [] hdone
        exact ⟨[], k, by rw [hk]; rfl,
          fun x hx => absurd hx (List.not_mem_nil x)⟩
      · have hstep : stepOnce ⟨TarState.init, bs, ent :: ents⟩ e
            = (⟨TarState.opn bs ent, bs, ents⟩, TarOut.loop) := by
          cases e <;> rfl
        rw [run_cons_loop _ e es _ hstep] at hdone hfail ⊢
        exact ih _ (by trivial) hdone hfail
    | opn b ent =>
      cases e with
      | openOk =>
        rw [run_cons_loop _ _ es _ rfl] at hdone hfail ⊢
        exact ih _ (by trivial) hdone hfail
      | openErr =>
        rw [run_cons_emit _ _ es _ _ rfl] at hfail
        exact absurd (List.mem_cons_self _ _) hfail
      | tick =>
        rw [run_cons_loop _ _ es _ rfl] at hdone hfail ⊢
        exact ih _ (by trivial) hdone hfail
      | metaOk mode mtime size =>
        rw [run_cons_loop _ _ es _ rfl] at hdone hfail ⊢
        exact ih _ (by trivial) hdone hfail
      | metaErr =>
        rw [run_cons_loop _ _ es _ rfl] at hdone hfail ⊢
        exact ih _ (by trivial) hdone hfail
      | readOk bytes =>
        rw [run_cons_loop _ _ es _ rfl] at hdone hfail ⊢
        exact ih _ (by trivial) hdone hfail
      | readErr =>
        rw [run_cons_loop _ _ es _ rfl] at hdone hfail ⊢
        exact ih _ (by trivial) hdone hfail
    | header b p =>
      cases e with
      | metaOk mode mtime size =>
        rw [run_cons_emit _ _ es _ _ rfl] at hdone hfail ⊢
        have hdone2 : TarItem.done ∈ TarStream.run
            ⟨TarState.read (TarStateRead.new b size), bs, ents⟩ es := by
          rcases List.mem_cons.mp hdone with h | h
          · exact absurd h (by simp)
          · exact h
        have hfail2 : TarItem.fail ∉ TarStream.run
            ⟨TarState.read (TarStateRead.new b size), bs, ents⟩ es :=
          fun h => hfail (List.mem_cons_of_mem _ h)
        obtain ⟨pre, k, hk, hclean⟩ := ih _ (by trivial) hdone2 hfail2
        refine ⟨TarItem.chunk (TarChunk.header p (headerWrite p mode size mtime))
          :: pre, k, by rw [hk]; rfl, ?_⟩
        intro x hx
        rcases List.mem_cons.mp hx with h | h
        · exact ⟨_, h, fun i hi => by cases hi⟩
        · exact hclean x h
      | metaErr =>
        rw [run_cons_emit _ _ es _ _ rfl] at hfail
        exact absurd (List.mem_cons_self _ _) hfail
      | tick =>
        rw [run_cons_loop _ _ es _ rfl] at hdone hfail ⊢
        exact ih _ (by trivial) hdone hfail
      | openOk =>
        rw [run_cons_loop _ _ es _ rfl] at hdone hfail ⊢
        exact ih _ (by trivial) hdone hfail
      | openErr =>
        rw [run_cons_loop _ _ es _ rfl] at hdone hfail ⊢
        exact ih _ (by trivial) hdone hfail
      | readOk bytes =>
        rw [run_cons_loop _ _ es _ rfl] at hdone hfail ⊢
        exact ih _ (by trivial) hdone hfail
      | readErr =>
        rw [run_cons_loop _ _ es _ rfl] at hdone hfail ⊢
        exact ih _ (by trivial) hdone hfail
    | read s =>
      cases e with
      | readOk bytes =>
        rcases hok : s.chunk.offsetOk s.offset with _ | _
        · have hstep : stepOnce ⟨TarState.read s, bs, ents⟩
              (TarEvent.readOk bytes)
              = (⟨TarState.completed, bs, ents⟩, TarOut.emit TarItem.fail) := by
            simp [stepOnce, hok]
          rw [run_cons_emit _ _ es _ _ hstep] at hfail
          exact absurd (List.mem_cons_self _ _) hfail
        · have hnp : ∀ i,
              (match s.chunk with
                | TarChunk.data buf => TarChunk.data (spliceAt buf s.offset bytes)
                | c => c) ≠ TarChunk.padding i := by
            intro i
            rcases hc : s.chunk with ⟨p0, b0⟩ | b0 | i0
            · simp
            · simp
            · rw [hc] at hok
              simp [TarChunk.offsetOk] at hok
          rcases hs : stepOnce ⟨TarState.read s, bs, ents⟩
              (TarEvent.readOk bytes) with ⟨m2, out⟩
          have hs0 := hs
          simp only [stepOnce, hok, if_true] at hs
          split at hs
          · cases hs
            rw [run_cons_emit _ _ es _ _ hs0] at hdone hfail ⊢
            obtain ⟨pre, k, hk, hclean⟩ := ih _ (by trivial)
              (by rcases List.mem_cons.mp hdone with h | h
                  · exact absurd h (by simp)
                  · exact h)
              (fun h => hfail (List.mem_cons_of_mem _ h))
            refine ⟨_ :: pre, k, by rw [hk]; rfl, ?_⟩
            intro x hx
            rcases List.mem_cons.mp hx with h | h
            · refine ⟨_, h, fun i hi => ?_⟩
              simp only [TarStateRead.advance] at hi
              exact hnp i hi
            · exact hclean x h
          · split at hs
            · cases hs
              rw [run_cons_emit _ _ es _ _ hs0] at hdone hfail ⊢
              obtain ⟨pre, k, hk, hclean⟩ := ih _ (by trivial)
                (by rcases List.mem_cons.mp hdone with h | h
                    · exact absurd h (by simp)
                    · exact h)
                (fun h => hfail (List.mem_cons_of_mem _ h))
              refine ⟨_ :: pre, k, by rw [hk]; rfl, ?_⟩
              intro x hx
              rcases List.mem_cons.mp hx with h | h
              · refine ⟨_, h, fun i hi => ?_⟩
                simp only [TarStateRead.next, TarStateRead.advance] at hi
                exact hnp i hi
              · exact hclean x h
            · cases hs
              rw [run_cons_loop _ _ es _ hs0] at hdone hfail ⊢
              exact ih _ (by trivial) hdone hfail
      | readErr =>
        rw [run_cons_emit _ _ es _ _ rfl] at hfail
        exact absurd (List.mem_cons_self _ _) hfail
      | tick =>
        rw [run_cons_loop _ _ es _ rfl] at hdone hfail ⊢
        exact ih _ (by trivial) hdone hfail
      | openOk =>
        rw [run_cons_loop _ _ es _ rfl] at hdone hfail ⊢
        exact ih _ (by trivial) hdone hfail
      | openErr =>
        rw [run_cons_loop _ _ es _ rfl] at hdone hfail ⊢
        exact ih _ (by trivial) hdone hfail
      | metaOk mode mtime size =>
        rw [run_cons_loop _ _ es _ rfl] at hdone hfail ⊢
        exact ih _ (by trivial) hdone hfail
      | metaErr =>
        rw [run_cons_loop _ _ es _ rfl] at hdone hfail ⊢
        exact ih _ (by trivial) hdone hfail
    | padding index => exact hw.elim
    | completed => exact hw.elim

/-- C7: a run that reaches end of stream with no error item ends with the
two padding chunks — each rendering as 512 zero bytes — followed only by
end-of-stream items, and every earlier item is a non-padding chunk; for
the empty entry list with buffer size 4096 the stream yields exactly the
two 512-zero-byte padding chunks and then end. -/
theorem tar_padding_termination (m : TarStream) (es : List TarEvent) :
    (TarStream.run (TarStream.new [] 4096)
        [TarEvent.tick, TarEvent.tick, TarEvent.tick, TarEvent.tick,
         TarEvent.tick]
      = [TarItem.chunk (TarChunk.padding 0), TarItem.chunk (TarChunk.padding 1),
         TarItem.done, TarItem.done])
    ∧ (∀ i, (TarChunk.padding i).toVec = List.replicate 512 0)
    ∧ (m.state = TarState.init → TarItem.done ∈ TarStream.run m es →
        TarItem.fail ∉ TarStream.run m es →
        ∃ pre k, TarStream.run m es
            = pre ++ TarItem.chunk (TarChunk.padding 0)
              :: TarItem.chunk (TarChunk.padding 1)
              :: List.replicate (k + 1) TarItem.done
          ∧ ∀ x ∈ pre, cleanItem x) := by
  refine ⟨by decide, fun i => rfl, fun hinit hdone hfail => ?_⟩
  have hw : m.state.working := by rw [hinit]; trivial
  exact run_working es m hw hdone hfail

/-- Witness for C7 at the empty archive. -/
theorem tar_padding_termination_witness :
    ∃ pre k, TarStream.run (TarStream.new [] 4096)
        [TarEvent.tick, TarEvent.tick, TarEvent.tick, TarEvent.tick,
         TarEvent.tick]
        = pre ++ TarItem.chunk (TarChunk.padding 0)
          :: TarItem.chunk (TarChunk.padding 1)
          :: List.replicate (k + 1) TarItem.done
      ∧ ∀ x ∈ pre, cleanItem x :=
  (tar_padding_termination (TarStream.new [] 4096)
      [TarEvent.tick, TarEvent.tick, TarEvent.tick, TarEvent.tick,
       TarEvent.tick]).2.2 rfl (by decide) (by decide)

/-- C10: the buffer keeps `position ≤ capacity` across every append and
consume; `consume(count)` under `count ≤ len` stays in bounds (the backing
vector's length is preserved and the new length is `len - count`); and
both codecs' scans return a consume count of at most the buffer's logical
length, so the panicking branch of `consume` is unreachable through the
stream scaffold. -/
theorem buffer_consume_safety (b : DockerStreamBuffer) (d : List Nat)
    (c : Nat) (parse : List Nat → Except Unit ImageCreateStreamItem) :
    (b.inv → (b.append d).inv)
    ∧ (b.inv → c ≤ b.len →
        (b.consume c).inv ∧ (b.consume c).data.length = b.data.length
          ∧ (b.consume c).len = b.len - c)
    ∧ (b.inv → (logLoop (b.len + 1) b.asRef 0).2 ≤ b.len)
    ∧ (b.inv → (imageLoop parse (b.len + 1) b.asRef 0 0).2 ≤ b.len) := by
  refine ⟨append_inv b d,
    fun hb hc => ⟨consume_inv b c hb hc, consume_data_length b c hb hc, rfl⟩,
    fun hb => ?_, fun hb => ?_⟩
  · have h := logLoop_consumed_le (b.len + 1) b.asRef 0 (Nat.zero_le _)
    rwa [asRef_length b hb] at h
  · have h := imageLoop_consumed_le parse (b.len + 1) b.asRef 0 0 (Nat.zero_le _)
    rwa [asRef_length b hb] at h

/-- Witness for C10 at a concrete buffer. -/
theorem buffer_consume_safety_witness :
    ((DockerStreamBuffer.mk 2 [13, 10]).append [1]).inv
    ∧ ((DockerStreamBuffer.mk 2 [13, 10]).consume 1).inv
    ∧ (logLoop ((DockerStreamBuffer.mk 2 [13, 10]).len + 1)
        (DockerStreamBuffer.mk 2 [13, 10]).asRef 0).2
        ≤ (DockerStreamBuffer.mk 2 [13, 10]).len :=
  ⟨(buffer_consume_safety (DockerStreamBuffer.mk 2 [13, 10]) [1] 1
      (fun _ => Except.error ())).1 (by decide),
   ((buffer_consume_safety (DockerStreamBuffer.mk 2 [13, 10]) [1] 1
      (fun _ => Except.error ())).2.1 (by decide) (by decide)).1,
   (buffer_consume_safety (DockerStreamBuffer.mk 2 [13, 10]) [1] 1
      (fun _ => Except.error ())).2.2.1 (by decide)⟩

/-! ## C5: split-invariance of the framing codecs

First the log codec: `logF` fuel irrelevance, its step equation, the
bridge from the indexed loop, and the concatenation algebra. -/

theorem logF_fuel_aux : ∀ f g (s : List Nat), s.length < f → s.length < g →
    logF f s = logF g s := by
  intro f
  induction f with
  | zero => intro g s hf hg; omega
  | succ f ih =>
    intro g s hf hg
    rcases g with _ | g
    · omega
    simp only [logF]
    by_cases h8 : s.length < 8
    · rw [if_pos h8, if_pos h8]
    · rw [if_neg h8, if_neg h8]
      by_cases hsz : 8 + be32 (s.getD 4 0) (s.getD 5 0) (s.getD 6 0)
          (s.getD 7 0) > s.length
      · rw [if_pos hsz, if_pos hsz]
      · rw [if_neg hsz, if_neg hsz]
        by_cases hv : validUtf8 ((s.drop 8).take (be32 (s.getD 4 0)
            (s.getD 5 0) (s.getD 6 0) (s.getD 7 0))) = true
        · rw [if_pos hv, if_pos hv,
            ih g _ (by rw [List.length_drop]; omega)
              (by rw [List.length_drop]; omega)]
        · rw [if_neg hv, if_neg hv]

theorem logF_fuel (f : Nat) (s : List Nat) (h : s.length < f) :
    logF f s = logFc s :=
  logF_fuel_aux f (s.length + 1) s h (Nat.lt_succ_self _)

theorem getD_append_left (s t : List Nat) (k : Nat) (h : k < s.length) :
    (s ++ t).getD k 0 = s.getD k 0 := by
  rw [List.getD_eq_getElem?_getD, List.getD_eq_getElem?_getD,
    List.getElem?_append_left h]

theorem drop_append_of_le (s t : List Nat) (n : Nat) (h : n ≤ s.length) :
    (s ++ t).drop n = s.drop n ++ t := by
  rw [List.drop_append_eq_append_drop, Nat.sub_eq_zero_of_le h, List.drop_zero]

theorem logFc_step (s : List Nat) :
    logFc s =
      if s.length < 8 then ([], 0)
      else
        if 8 + be32 (s.getD 4 0) (s.getD 5 0) (s.getD 6 0) (s.getD 7 0)
            > s.length then ([], 0)
        else
          if validUtf8 ((s.drop 8).take (be32 (s.getD 4 0) (s.getD 5 0)
              (s.getD 6 0) (s.getD 7 0))) then
            (Except.ok ((s.drop 8).take (be32 (s.getD 4 0) (s.getD 5 0)
                (s.getD 6 0) (s.getD 7 0)))
              :: (logFc (s.drop (8 + be32 (s.getD 4 0) (s.getD 5 0)
                  (s.getD 6 0) (s.getD 7 0)))).1,
             8 + be32 (s.getD 4 0) (s.getD 5 0) (s.getD 6 0) (s.getD 7 0)
              + (logFc (s.drop (8 + be32 (s.getD 4 0) (s.getD 5 0)
                  (s.getD 6 0) (s.getD 7 0)))).2)
          else
            ([Except.error ()],
             8 + be32 (s.getD 4 0) (s.getD 5 0) (s.getD 6 0) (s.getD 7 0)) := by
  show logF (s.length + 1) s = _
  simp only [logF]
  by_cases h8 : s.length < 8
  · rw [if_pos h8, if_pos h8]
  · rw [if_neg h8, if_neg h8]
    by_cases hsz : 8 + be32 (s.getD 4 0) (s.getD 5 0) (s.getD 6 0)
        (s.getD 7 0) > s.length
    · rw [if_pos hsz, if_pos hsz]
    · rw [if_neg hsz, if_neg hsz]
      by_cases hv : validUtf8 ((s.drop 8).take (be32 (s.getD 4 0) (s.getD 5 0)
          (s.getD 6 0) (s.getD 7 0))) = true
      · rw [if_pos hv, if_pos hv,
          logF_fuel s.length _ (by rw [List.length_drop]; omega)]
      · rw [if_neg hv, if_neg hv]

theorem logFc_consumed_le : ∀ (n : Nat) (s : List Nat), s.length ≤ n →
    (logFc s).2 ≤ s.length := by
  intro n
  induction n with
  | zero =>
    intro s hs
    have hnil : s = [] := List.length_eq_zero.mp (by omega)
    subst hnil
    simp [logFc, logF]
  | succ n ih =>
    intro s hs
    rw [logFc_step]
    by_cases h8 : s.length < 8
    · rw [if_pos h8]; exact Nat.zero_le _
    · rw [if_neg h8]
      by_cases hsz : 8 + be32 (s.getD 4 0) (s.getD 5 0) (s.getD 6 0)
          (s.getD 7 0) > s.length
      · rw [if_pos hsz]; exact Nat.zero_le _
      · rw [if_neg hsz]
        by_cases hv : validUtf8 ((s.drop 8).take (be32 (s.getD 4 0) (s.getD 5 0)
            (s.getD 6 0) (s.getD 7 0))) = true
        · rw [if_pos hv]
          have h := ih (s.drop (8 + be32 (s.getD 4 0) (s.getD 5 0) (s.getD 6 0)
            (s.getD 7 0))) (by rw [List.length_drop]; omega)
          rw [List.length_drop] at h
          show 8 + _ + _ ≤ s.length
          omega
        · rw [if_neg hv]
          show 8 + _ ≤ s.length
          omega

theorem logFc_append : ∀ (n : Nat) (s t : List Nat), s.length ≤ n →
    errFree (logFc s).1 = true →
    logFc (s ++ t)
      = ((logFc s).1 ++ (logFc (s.drop (logFc s).2 ++ t)).1,
         (logFc s).2 + (logFc (s.drop (logFc s).2 ++ t)).2) := by
  intro n
  induction n with
  | zero =>
    intro s t hs _
    have hnil : s = [] := List.length_eq_zero.mp (by omega)
    subst hnil
    have h0 : logFc ([] : List Nat) = ([], 0) := rfl
    simp [h0]
  | succ n ih =>
    intro s t hs herr
    set sz := be32 (s.getD 4 0) (s.getD 5 0) (s.getD 6 0) (s.getD 7 0)
      with hszdef
    by_cases h8 : s.length < 8
    · have h0 : logFc s = ([], 0) := by rw [logFc_step, if_pos h8]
      simp [h0]
    · by_cases hsz : 8 + sz > s.length
      · have h0 : logFc s = ([], 0) := by
          rw [logFc_step, if_neg h8, ← hszdef, if_pos hsz]
        simp [h0]
      · by_cases hv : validUtf8 ((s.drop 8).take sz) = true
        · have hstep : logFc s
              = (Except.ok ((s.drop 8).take sz)
                  :: (logFc (s.drop (8 + sz))).1,
                 8 + sz + (logFc (s.drop (8 + sz))).2) := by
            rw [logFc_step, if_neg h8, ← hszdef, if_neg hsz, if_pos hv]
          have hbe : be32 ((s ++ t).getD 4 0) ((s ++ t).getD 5 0)
              ((s ++ t).getD 6 0) ((s ++ t).getD 7 0) = sz := by
            rw [getD_append_left s t 4 (by omega),
              getD_append_left s t 5 (by omega),
              getD_append_left s t 6 (by omega),
              getD_append_left s t 7 (by omega)]
          have hdrop8 : (s ++ t).drop 8 = s.drop 8 ++ t :=
            drop_append_of_le s t 8 (by omega)
          have hpay : ((s ++ t).drop 8).take sz = (s.drop 8).take sz := by
            rw [hdrop8, List.take_append_of_le_length
              (by rw [List.length_drop]; omega)]
          have hdropsz : (s ++ t).drop (8 + sz) = s.drop (8 + sz) ++ t :=
            drop_append_of_le s t _ (by omega)
          have hstep2 : logFc (s ++ t)
              = (Except.ok ((s.drop 8).take sz)
                  :: (logFc (s.drop (8 + sz) ++ t)).1,
                 8 + sz + (logFc (s.drop (8 + sz) ++ t)).2) := by
            rw [logFc_step (s ++ t),
              if_neg (by rw [List.length_append]; omega), hbe,
              if_neg (by rw [List.length_append]; omega), hpay, if_pos hv,
              hdropsz]
          have herr2 : errFree (logFc (s.drop (8 + sz))).1 = true := by
            rw [hstep] at herr
            simpa [errFree, isErrItem] using herr
          have hih := ih (s.drop (8 + sz)) t (by rw [List.length_drop]; omega)
            herr2
          rw [hstep2, hstep, hih]
          rw [show s.drop (8 + sz + (logFc (s.drop (8 + sz))).2)
              = (s.drop (8 + sz)).drop (logFc (s.drop (8 + sz))).2 from
            (List.drop_drop _ _ _).symm]
          simp [List.cons_append, Nat.add_assoc]
        · have hstep : logFc s = ([Except.error ()], 8 + sz) := by
            rw [logFc_step, if_neg h8, ← hszdef, if_neg hsz, if_neg hv]
          rw [hstep] at herr
          simp [errFree, isErrItem] at herr

theorem logFc_prefix_errFree : ∀ (n : Nat) (s t : List Nat), s.length ≤ n →
    errFree (logFc (s ++ t)).1 = true → errFree (logFc s).1 = true := by
  intro n
  induction n with
  | zero =>
    intro s t hs _
    have hnil : s = [] := List.length_eq_zero.mp (by omega)
    subst hnil
    rfl
  | succ n ih =>
    intro s t hs herr
    set sz := be32 (s.getD 4 0) (s.getD 5 0) (s.getD 6 0) (s.getD 7 0)
      with hszdef
    by_cases h8 : s.length < 8
    · rw [logFc_step, if_pos h8]; rfl
    · by_cases hsz : 8 + sz > s.length
      · rw [logFc_step, if_neg h8, ← hszdef, if_pos hsz]; rfl
      · have hbe : be32 ((s ++ t).getD 4 0) ((s ++ t).getD 5 0)
            ((s ++ t).getD 6 0) ((s ++ t).getD 7 0) = sz := by
          rw [getD_append_left s t 4 (by omega),
            getD_append_left s t 5 (by omega),
            getD_append_left s t 6 (by omega),
            getD_append_left s t 7 (by omega)]
        have hpay : ((s ++ t).drop 8).take sz = (s.drop 8).take sz := by
          rw [drop_append_of_le s t 8 (by omega),
            List.take_append_of_le_length (by rw [List.length_drop]; omega)]
        by_cases hv : validUtf8 ((s.drop 8).take sz) = true
        · rw [logFc_step, if_neg h8, ← hszdef, if_neg hsz, if_pos hv]
          rw [logFc_step (s ++ t),
            if_neg (by rw [List.length_append]; omega), hbe,
            if_neg (by rw [List.length_append]; omega), hpay, if_pos hv,
            drop_append_of_le s t _ (by omega)] at herr
          simp only [errFree, List.all_cons, Bool.and_eq_true] at herr ⊢
          exact ⟨herr.1, ih (s.drop (8 + sz)) t (by rw [List.length_drop]; omega)
            herr.2⟩
        · rw [logFc_step (s ++ t),
            if_neg (by rw [List.length_append]; omega), hbe,
            if_neg (by rw [List.length_append]; omega), hpay, if_neg hv]
            at herr
          simp [errFree, isErrItem] at herr

theorem logFc_leftover : ∀ (n : Nat) (s : List Nat), s.length ≤ n →
    errFree (logFc s).1 = true →
    logFc (s.drop (logFc s).2) = ([], 0) := by
  intro n
  induction n with
  | zero =>
    intro s hs _
    have hnil : s = [] := List.length_eq_zero.mp (by omega)
    subst hnil
    rfl
  | succ n ih =>
    intro s hs herr
    set sz := be32 (s.getD 4 0) (s.getD 5 0) (s.getD 6 0) (s.getD 7 0)
      with hszdef
    by_cases h8 : s.length < 8
    · have h0 : logFc s = ([], 0) := by rw [logFc_step, if_pos h8]
      rw [h0]
      show logFc s = ([], 0)
      exact h0
    · by_cases hsz : 8 + sz > s.length
      · have h0 : logFc s = ([], 0) := by
          rw [logFc_step, if_neg h8, ← hszdef, if_pos hsz]
        rw [h0]
        show logFc s = ([], 0)
        exact h0
      · by_cases hv : validUtf8 ((s.drop 8).take sz) = true
        · have hstep : logFc s
              = (Except.ok ((s.drop 8).take sz)
                  :: (logFc (s.drop (8 + sz))).1,
                 8 + sz + (logFc (s.drop (8 + sz))).2) := by
            rw [logFc_step, if_neg h8, ← hszdef, if_neg hsz, if_pos hv]
          have herr2 : errFree (logFc (s.drop (8 + sz))).1 = true := by
            rw [hstep] at herr
            simpa [errFree, isErrItem] using herr
          have hih := ih (s.drop (8 + sz)) (by rw [List.length_drop]; omega)
            herr2
          rw [hstep]
          show logFc (s.drop (8 + sz + (logFc (s.drop (8 + sz))).2)) = ([], 0)
          rw [show s.drop (8 + sz + (logFc (s.drop (8 + sz))).2)
              = (s.drop (8 + sz)).drop (logFc (s.drop (8 + sz))).2 from
            (List.drop_drop _ _ _).symm]
          exact hih
        · have hstep : logFc s = ([Except.error ()], 8 + sz) := by
            rw [logFc_step, if_neg h8, ← hszdef, if_neg hsz, if_neg hv]
          rw [hstep] at herr
          simp [errFree, isErrItem] at herr

theorem getD_drop (data : List Nat) (current k : Nat) :
    (data.drop current).getD k 0 = data.getD (current + k) 0 := by
  rw [List.getD_eq_getElem?_getD, List.getD_eq_getElem?_getD,
    List.getElem?_drop]

theorem logLoop_eq_logF : ∀ (fuel : Nat) (data : List Nat) (current : Nat),
    logLoop fuel data current
      = ((logF fuel (data.drop current)).1,
         current + (logF fuel (data.drop current)).2) := by
  intro fuel
  induction fuel with
  | zero => intro data current; rfl
  | succ fuel ih =>
    intro data current
    simp only [logLoop, logF]
    have hlen : (data.drop current).length = data.length - current :=
      List.length_drop _ _
    have hbe : be32 ((data.drop current).getD 4 0) ((data.drop current).getD 5 0)
        ((data.drop current).getD 6 0) ((data.drop current).getD 7 0)
        = be32 (data.getD (current + 4) 0) (data.getD (current + 5) 0)
          (data.getD (current + 6) 0) (data.getD (current + 7) 0) := by
      rw [getD_drop, getD_drop, getD_drop, getD_drop]
    by_cases hc : current < data.length
    · rw [if_pos hc]
      by_cases h8 : current + 8 > data.length
      · rw [if_pos h8,
          if_pos (show (data.drop current).length < 8 by rw [hlen]; omega)]
        simp
      · rw [if_neg h8, hbe]
        set sz := be32 (data.getD (current + 4) 0) (data.getD (current + 5) 0)
          (data.getD (current + 6) 0) (data.getD (current + 7) 0) with hszdef
        rw [if_neg (show ¬ (data.drop current).length < 8 by rw [hlen]; omega)]
        rw [show ((data.drop current).drop 8).take sz
            = (data.drop (current + 8)).take sz by rw [List.drop_drop]]
        rw [show (data.drop current).drop (8 + sz)
            = data.drop (current + (8 + sz)) from List.drop_drop _ _ _]
        by_cases hsz2 : current + 8 + sz > data.length
        · rw [if_pos hsz2,
            if_pos (show 8 + sz > (data.drop current).length by
              rw [hlen]; omega)]
          simp
        · rw [if_neg hsz2,
            if_neg (show ¬ 8 + sz > (data.drop current).length by
              rw [hlen]; omega)]
          by_cases hv : validUtf8 ((data.drop (current + 8)).take sz) = true
          · rw [if_pos hv, if_pos hv, ih data (current + 8 + sz),
              show current + (8 + sz) = current + 8 + sz by omega]
            simp only [Prod.mk.injEq]
            exact ⟨trivial, by omega⟩
          · rw [if_neg hv, if_neg hv]
            simp only [Prod.mk.injEq]
            exact ⟨trivial, by omega⟩
    · rw [if_neg hc,
        if_pos (show (data.drop current).length < 8 by rw [hlen]; omega)]
      simp

theorem logExtract_eq (b : DockerStreamBuffer) (hb : b.inv) :
    (logExtract b).1 = (logFc b.asRef).1
    ∧ (logExtract b).2.asRef = b.asRef.drop (logFc b.asRef).2
    ∧ (logExtract b).2.inv := by
  have hlen : b.asRef.length = b.len := asRef_length b hb
  have hloop : logLoop (b.len + 1) b.asRef 0 = logFc b.asRef := by
    rw [logLoop_eq_logF, List.drop_zero, logF_fuel _ _ (by omega)]
    simp
  have hcle : (logFc b.asRef).2 ≤ b.len := by
    have := logFc_consumed_le b.asRef.length b.asRef le_rfl
    omega
  constructor
  · show (logLoop (b.len + 1) b.asRef 0).1 = _
    rw [hloop]
  constructor
  · show (if (logLoop (b.len + 1) b.asRef 0).2 > 0 then
        b.consume (logLoop (b.len + 1) b.asRef 0).2 else b).asRef = _
    rw [hloop]
    by_cases hz : (logFc b.asRef).2 > 0
    · rw [if_pos hz, asRef_consume b _ hb (by exact hcle)]
    · rw [if_neg hz]
      have h0 : (logFc b.asRef).2 = 0 := by omega
      rw [h0, List.drop_zero]
  · show (if (logLoop (b.len + 1) b.asRef 0).2 > 0 then
        b.consume (logLoop (b.len + 1) b.asRef 0).2 else b).inv
    rw [hloop]
    by_cases hz : (logFc b.asRef).2 > 0
    · rw [if_pos hz]
      exact consume_inv b _ hb hcle
    · rw [if_neg hz]
      exact hb

theorem feedLog_general : ∀ (chunks : List (List Nat)) (b : DockerStreamBuffer),
    b.inv → logFc b.asRef = ([], 0) →
    errFree (logFc (b.asRef ++ chunks.flatten)).1 = true →
    (logFeed b chunks).1 = (logFc (b.asRef ++ chunks.flatten)).1 := by
  intro chunks
  induction chunks with
  | nil =>
    intro b hb h0 herr
    show ([] : List LogItem) = _
    rw [List.flatten_nil, List.append_nil, h0]
  | cons d ds ih =>
    intro b hb h0 herr
    have hassoc : b.asRef ++ (d :: ds).flatten = (b.asRef ++ d) ++ ds.flatten := by
      rw [List.flatten_cons, List.append_assoc]
    rw [hassoc] at herr ⊢
    have hpre : errFree (logFc (b.asRef ++ d)).1 = true :=
      logFc_prefix_errFree (b.asRef ++ d).length (b.asRef ++ d) ds.flatten
        le_rfl herr
    have happ := logFc_append (b.asRef ++ d).length (b.asRef ++ d) ds.flatten
      le_rfl hpre
    have hext := logExtract_eq (b.append d) (append_inv b d hb)
    have hasr : (b.append d).asRef = b.asRef ++ d := asRef_append b d hb
    have hb2asr : (logExtract (b.append d)).2.asRef
        = (b.asRef ++ d).drop (logFc (b.asRef ++ d)).2 := by
      rw [hext.2.1, hasr]
    have hleft : logFc ((logExtract (b.append d)).2.asRef) = ([], 0) := by
      rw [hb2asr]
      exact logFc_leftover (b.asRef ++ d).length (b.asRef ++ d) le_rfl hpre
    have herr2 : errFree (logFc ((logExtract (b.append d)).2.asRef
        ++ ds.flatten)).1 = true := by
      rw [hb2asr]
      rw [happ] at herr
      simp only [errFree, List.all_append, Bool.and_eq_true] at herr
      exact herr.2
    have hih := ih (logExtract (b.append d)).2 hext.2.2 hleft herr2
    show ((logExtract (b.append d)).1 ++ (logFeed (logExtract (b.append d)).2 ds).1) = _
    rw [hih, hext.1, hasr, hb2asr, happ]

/-! ## C5: the image-pull codec side -/

theorem pairAt_drop (data : List Nat) (current k : Nat) :
    pairAt (data.drop current) k ↔ pairAt data (current + k) := by
  unfold pairAt
  rw [List.length_drop, getD_drop, getD_drop,
    show current + (k + 1) = current + k + 1 by omega]
  constructor
  · rintro ⟨h1, h2, h3⟩
    exact ⟨by omega, h2, h3⟩
  · rintro ⟨h1, h2, h3⟩
    refine ⟨by omega, h2, h3⟩

theorem findCRLF_none_of : ∀ s : List Nat, (∀ k, ¬ pairAt s k) →
    findCRLF s = none := by
  intro s
  induction s with
  | nil => intro _; rfl
  | cons a s ih =>
    intro h
    rcases s with _ | ⟨b, rest⟩
    · rfl
    · show (if a = 13 ∧ b = 10 then some 0
          else (findCRLF (b :: rest)).map (· + 1)) = none
      rw [if_neg, ih, Option.map_none']
      · intro k
        have := h (k + 1)
        intro hk
        apply this
        exact ⟨by
          have := hk.1
          simp only [List.length_cons] at this ⊢
          omega, hk.2.1, hk.2.2⟩
      · intro hab
        exact h 0 ⟨by simp [List.length_cons], by simp [hab.1], by simp [hab.2]⟩

theorem findCRLF_first : ∀ (s : List Nat) (j : Nat), pairAt s j →
    (∀ k, k < j → ¬ pairAt s k) → findCRLF s = some j := by
  intro s
  induction s with
  | nil =>
    intro j hj _
    exact absurd hj.1 (by simp [pairAt])
  | cons a s ih =>
    intro j hj hmin
    rcases s with _ | ⟨b, rest⟩
    · exact absurd hj.1 (by simp)
    · rcases j with _ | j
      · have hab : a = 13 ∧ b = 10 :=
          ⟨by simpa using hj.2.1, by simpa using hj.2.2⟩
        show (if a = 13 ∧ b = 10 then some 0
            else (findCRLF (b :: rest)).map (· + 1)) = some 0
        rw [if_pos hab]
      · have hab : ¬ (a = 13 ∧ b = 10) := by
          intro hab
          exact hmin 0 (by omega)
            ⟨by simp [List.length_cons], by simp [hab.1], by simp [hab.2]⟩
        have hpj : pairAt (b :: rest) j := by
          refine ⟨?_, ?_, ?_⟩
          · have := hj.1
            simp only [List.length_cons] at this ⊢
            omega
          · have := hj.2.1; simpa using this
          · have := hj.2.2; simpa using this
        have hminj : ∀ k, k < j → ¬ pairAt (b :: rest) k := by
          intro k hk hpk
          apply hmin (k + 1) (by omega)
          refine ⟨?_, ?_, ?_⟩
          · have := hpk.1
            simp only [List.length_cons] at this ⊢
            omega
          · have := hpk.2.1; simpa using this
          · have := hpk.2.2; simpa using this
        show (if a = 13 ∧ b = 10 then some 0
            else (findCRLF (b :: rest)).map (· + 1)) = some (j + 1)
        rw [if_neg hab, ih j hpj hminj, Option.map_some']

theorem findCRLF_some_pair : ∀ s : List Nat, ∀ j, findCRLF s = some j →
    pairAt s j := by
  intro s
  induction s with
  | nil => intro j h; cases h
  | cons a s ih =>
    intro j h
    rcases s with _ | ⟨b, rest⟩
    · cases h
    · rw [show findCRLF (a :: b :: rest) = (if a = 13 ∧ b = 10 then some 0
          else (findCRLF (b :: rest)).map (· + 1)) from rfl] at h
      by_cases hab : a = 13 ∧ b = 10
      · rw [if_pos hab] at h
        cases h
        exact ⟨by simp [List.length_cons], by simp [hab.1], by simp [hab.2]⟩
      · rw [if_neg hab] at h
        rcases hfd : findCRLF (b :: rest) with _ | j2
        · rw [hfd] at h; cases h
        · rw [hfd, Option.map_some'] at h
          cases h
          have hp := ih j2 hfd
          exact ⟨by
            have := hp.1
            simp only [List.length_cons] at this ⊢
            omega, by simpa using hp.2.1, by simpa using hp.2.2⟩

theorem findCRLF_min : ∀ s : List Nat, ∀ j, findCRLF s = some j →
    ∀ k, k < j → ¬ pairAt s k := by
  intro s
  induction s with
  | nil => intro j h; cases h
  | cons a s ih =>
    intro j h k hk hpk
    rcases s with _ | ⟨b, rest⟩
    · cases h
    · rw [show findCRLF (a :: b :: rest) = (if a = 13 ∧ b = 10 then some 0
          else (findCRLF (b :: rest)).map (· + 1)) from rfl] at h
      by_cases hab : a = 13 ∧ b = 10
      · rw [if_pos hab] at h
        cases h
        omega
      · rw [if_neg hab] at h
        rcases hfd : findCRLF (b :: rest) with _ | j2
        · rw [hfd] at h; cases h
        · rw [hfd, Option.map_some'] at h
          cases h
          rcases k with _ | k
          · exact hab ⟨by simpa using hpk.2.1, by simpa using hpk.2.2⟩
          · refine ih j2 hfd k (by omega) ⟨?_, ?_, ?_⟩
            · have := hpk.1
              simp only [List.length_cons] at this ⊢
              omega
            · have := hpk.2.1; simpa using this
            · have := hpk.2.2; simpa using this

theorem findCRLF_append_some (s t : List Nat) (j : Nat)
    (hs : findCRLF s = some j) : findCRLF (s ++ t) = some j := by
  have hp := findCRLF_some_pair s j hs
  apply findCRLF_first
  · refine ⟨?_, ?_, ?_⟩
    · rw [List.length_append]
      have := hp.1
      omega
    · rw [getD_append_left s t j (by have := hp.1; omega)]
      exact hp.2.1
    · rw [getD_append_left s t (j + 1) hp.1]
      exact hp.2.2
  · intro k hk hpk
    have hb : k + 1 < s.length := by have := hp.1; omega
    refine findCRLF_min s j hs k hk ⟨hb, ?_, ?_⟩
    · have h2 := hpk.2.1
      rwa [getD_append_left s t k (by omega)] at h2
    · have h3 := hpk.2.2
      rwa [getD_append_left s t (k + 1) hb] at h3

theorem imageF_fuel_aux : ∀ f g (s : List Nat), s.length < f → s.length < g →
    imageF f s = imageF g s := by
  intro f
  induction f with
  | zero => intro g s hf hg; omega
  | succ f ih =>
    intro g s hf hg
    rcases g with _ | g
    · omega
    simp only [imageF]
    rcases hfd : findCRLF s with _ | j
    · rfl
    · have hp := findCRLF_some_pair s j hfd
      have hb : j + 1 < s.length := hp.1
      have hr := ih g (s.drop (j + 2)) (by rw [List.length_drop]; omega)
        (by rw [List.length_drop]; omega)
      simp only [hr]

theorem imageF_fuel (f : Nat) (s : List Nat) (h : s.length < f) :
    imageF f s = imageFc s :=
  imageF_fuel_aux f (s.length + 1) s h (Nat.lt_succ_self _)

theorem imageFc_step (s : List Nat) :
    imageFc s =
      match findCRLF s with
      | none => ([], 0)
      | some j =>
        (s.take j :: (imageFc (s.drop (j + 2))).1,
         j + 2 + (imageFc (s.drop (j + 2))).2) := by
  show imageF (s.length + 1) s = _
  simp only [imageF]
  rcases hfd : findCRLF s with _ | j
  · rfl
  · have hp := findCRLF_some_pair s j hfd
    have hr := imageF_fuel s.length (s.drop (j + 2))
      (by rw [List.length_drop]; have := hp.1; omega)
    simp only [hr]

theorem imageFc_append : ∀ (n : Nat) (s t : List Nat), s.length ≤ n →
    imageFc (s ++ t)
      = ((imageFc s).1 ++ (imageFc (s.drop (imageFc s).2 ++ t)).1,
         (imageFc s).2 + (imageFc (s.drop (imageFc s).2 ++ t)).2) := by
  intro n
  induction n with
  | zero =>
    intro s t hs
    have hnil : s = [] := List.length_eq_zero.mp (by omega)
    subst hnil
    have h0 : imageFc ([] : List Nat) = ([], 0) := rfl
    simp [h0]
  | succ n ih =>
    intro s t hs
    rcases hfd : findCRLF s with _ | j
    · have h0 : imageFc s = ([], 0) := by rw [imageFc_step, hfd]
      simp [h0]
    · have hp := findCRLF_some_pair s j hfd
      have hstep : imageFc s
          = (s.take j :: (imageFc (s.drop (j + 2))).1,
             j + 2 + (imageFc (s.drop (j + 2))).2) := by
        rw [imageFc_step, hfd]
      have hfd2 : findCRLF (s ++ t) = some j := findCRLF_append_some s t j hfd
      have hstep2 : imageFc (s ++ t)
          = ((s ++ t).take j :: (imageFc ((s ++ t).drop (j + 2))).1,
             j + 2 + (imageFc ((s ++ t).drop (j + 2))).2) := by
        rw [imageFc_step, hfd2]
      have htake : (s ++ t).take j = s.take j :=
        List.take_append_of_le_length (by have := hp.1; omega)
      have hdrop : (s ++ t).drop (j + 2) = s.drop (j + 2) ++ t :=
        drop_append_of_le s t _ (by have := hp.1; omega)
      have hih := ih (s.drop (j + 2)) t
        (by rw [List.length_drop]; have := hp.1; omega)
      rw [hstep2, htake, hdrop, hih, hstep]
      rw [show s.drop (j + 2 + (imageFc (s.drop (j + 2))).2)
          = (s.drop (j + 2)).drop (imageFc (s.drop (j + 2))).2 from
        (List.drop_drop _ _ _).symm]
      simp [List.cons_append, Nat.add_assoc]

theorem imageFc_leftover : ∀ (n : Nat) (s : List Nat), s.length ≤ n →
    findCRLF (s.drop (imageFc s).2) = none := by
  intro n
  induction n with
  | zero =>
    intro s hs
    have hnil : s = [] := List.length_eq_zero.mp (by omega)
    subst hnil
    rfl
  | succ n ih =>
    intro s hs
    rcases hfd : findCRLF s with _ | j
    · have h0 : imageFc s = ([], 0) := by rw [imageFc_step, hfd]
      rw [h0, List.drop_zero]
      exact hfd
    · have hp := findCRLF_some_pair s j hfd
      have hstep : imageFc s
          = (s.take j :: (imageFc (s.drop (j + 2))).1,
             j + 2 + (imageFc (s.drop (j + 2))).2) := by
        rw [imageFc_step, hfd]
      rw [hstep]
      show findCRLF (s.drop (j + 2 + (imageFc (s.drop (j + 2))).2)) = none
      rw [show s.drop (j + 2 + (imageFc (s.drop (j + 2))).2)
          = (s.drop (j + 2)).drop (imageFc (s.drop (j + 2))).2 from
        (List.drop_drop _ _ _).symm]
      exact ih (s.drop (j + 2)) (by rw [List.length_drop]; have := hp.1; omega)

theorem imageFc_consumed_le : ∀ (n : Nat) (s : List Nat), s.length ≤ n →
    (imageFc s).2 ≤ s.length := by
  intro n
  induction n with
  | zero =>
    intro s hs
    have hnil : s = [] := List.length_eq_zero.mp (by omega)
    subst hnil
    exact Nat.le_refl _
  | succ n ih =>
    intro s hs
    rcases hfd : findCRLF s with _ | j
    · rw [imageFc_step, hfd]
      exact Nat.zero_le _
    · have hp := findCRLF_some_pair s j hfd
      rw [imageFc_step, hfd]
      have hih := ih (s.drop (j + 2))
        (by rw [List.length_drop]; have := hp.1; omega)
      rw [List.length_drop] at hih
      show j + 2 + (imageFc (s.drop (j + 2))).2 ≤ s.length
      have := hp.1
      omega

theorem imageLoop_eq_imageF
    (parse : List Nat → Except Unit ImageCreateStreamItem) :
    ∀ (fuel : Nat) (data : List Nat) (i current : Nat),
      data.length ≤ fuel + i →
      current ≤ i + 1 →
      (∀ k, current ≤ k → k < i → ¬ pairAt data k) →
      (current = i + 1 → data.getD i 0 = 10) →
      imageLoop parse fuel data i current
        = ((imageFc (data.drop current)).1.map parse,
           current + (imageFc (data.drop current)).2) := by
  intro fuel
  induction fuel with
  | zero =>
    intro data i current hfuel hci hnp hlag
    have hnone : findCRLF (data.drop current) = none := by
      apply findCRLF_none_of
      intro k hpk
      rw [pairAt_drop] at hpk
      have hb := hpk.1
      by_cases hlt : current + k < i
      · exact hnp (current + k) (by omega) hlt hpk
      · omega
    have h0 : imageFc (data.drop current) = ([], 0) := by
      rw [imageFc_step, hnone]
    rw [show imageLoop parse 0 data i current = ([], current) from rfl, h0]
    simp
  | succ fuel ih =>
    intro data i current hfuel hci hnp hlag
    simp only [imageLoop]
    by_cases hi : i < data.length - 1
    · rw [if_pos hi]
      split
      · rename_i h
        have hpair : data.getD i 0 = 13 ∧ data.getD (i + 1) 0 = 10 := by
          simpa using h
        have hpa : pairAt data i := ⟨by omega, hpair.1, hpair.2⟩
        have hcur : current ≤ i := by
          rcases Nat.lt_or_ge current (i + 1) with h2 | h2
          · omega
          · exfalso
            have h10 := hlag (by omega)
            have h13 := hpair.1
            omega
        have hfind : findCRLF (data.drop current) = some (i - current) := by
          apply findCRLF_first
          · rw [pairAt_drop, show current + (i - current) = i by omega]
            exact hpa
          · intro k hk hpk
            rw [pairAt_drop] at hpk
            exact hnp (current + k) (by omega) (by omega) hpk
        have hdd : (data.drop current).drop (i - current + 2)
            = data.drop (i + 2) := by
          rw [List.drop_drop, show current + (i - current + 2) = i + 2 by omega]
        have hstep : imageFc (data.drop current)
            = ((data.drop current).take (i - current)
                :: (imageFc (data.drop (i + 2))).1,
               (i - current) + 2 + (imageFc (data.drop (i + 2))).2) := by
          rw [imageFc_step, hfind]
          simp only [hdd]
        have hih := ih data (i + 1) (i + 2) (by omega) (by omega)
          (fun k hk1 hk2 => by omega)
          (fun _ => hpair.2)
        rw [hih, hstep]
        simp only [List.map_cons, Prod.mk.injEq]
        refine ⟨trivial, by omega⟩
      · rename_i h
        have hnpair : ¬ (data.getD i 0 = 13 ∧ data.getD (i + 1) 0 = 10) := by
          simpa using h
        exact ih data (i + 1) current (by omega) (by omega)
          (fun k hk1 hk2 => by
            by_cases hki : k < i
            · exact hnp k hk1 hki
            · have hkeq : k = i := by omega
              subst hkeq
              intro hpk
              exact hnpair ⟨hpk.2.1, hpk.2.2⟩)
          (fun hc => absurd hc (by omega))
    · rw [if_neg hi]
      have hnone : findCRLF (data.drop current) = none := by
        apply findCRLF_none_of
        intro k hpk
        rw [pairAt_drop] at hpk
        have hb := hpk.1
        by_cases hlt : current + k < i
        · exact hnp (current + k) (by omega) hlt hpk
        · omega
      have h0 : imageFc (data.drop current) = ([], 0) := by
        rw [imageFc_step, hnone]
      rw [h0]
      simp

theorem imageExtract_eq (parse : List Nat → Except Unit ImageCreateStreamItem)
    (b : DockerStreamBuffer) (hb : b.inv) :
    (imageExtract parse b).1
      = (imageFc b.asRef).1.map (fun r => lineFromResult (parse r))
    ∧ (imageExtract parse b).2.asRef = b.asRef.drop (imageFc b.asRef).2
    ∧ (imageExtract parse b).2.inv := by
  have hlen : b.asRef.length = b.len := asRef_length b hb
  have hloop : imageLoop parse (b.len + 1) b.asRef 0 0
      = ((imageFc b.asRef).1.map parse, (imageFc b.asRef).2) := by
    have h := imageLoop_eq_imageF parse (b.len + 1) b.asRef 0 0
      (by rw [hlen]; omega) (by omega)
      (fun k hk1 hk2 => absurd hk2 (by omega))
      (fun hc => absurd hc (by omega))
    rw [h, List.drop_zero]
    simp
  have hcle : (imageFc b.asRef).2 ≤ b.len := by
    have := imageFc_consumed_le b.asRef.length b.asRef le_rfl
    omega
  refine ⟨?_, ?_, ?_⟩
  · show ((imageLoop parse (b.len + 1) b.asRef 0 0).1.map lineFromResult) = _
    rw [hloop, List.map_map]
    rfl
  · show (if (imageLoop parse (b.len + 1) b.asRef 0 0).2 > 0 then
        b.consume (imageLoop parse (b.len + 1) b.asRef 0 0).2 else b).asRef = _
    rw [hloop]
    by_cases hz : (imageFc b.asRef).2 > 0
    · rw [if_pos hz, asRef_consume b _ hb hcle]
    · rw [if_neg hz]
      have h0 : (imageFc b.asRef).2 = 0 := by omega
      rw [h0, List.drop_zero]
  · show (if (imageLoop parse (b.len + 1) b.asRef 0 0).2 > 0 then
        b.consume (imageLoop parse (b.len + 1) b.asRef 0 0).2 else b).inv
    rw [hloop]
    by_cases hz : (imageFc b.asRef).2 > 0
    · rw [if_pos hz]
      exact consume_inv b _ hb hcle
    · rw [if_neg hz]
      exact hb

theorem feedImage_general
    (parse : List Nat → Except Unit ImageCreateStreamItem) :
    ∀ (chunks : List (List Nat)) (b : DockerStreamBuffer),
      b.inv → findCRLF b.asRef = none →
      (imageFeed parse b chunks).1
        = (imageFc (b.asRef ++ chunks.flatten)).1.map
            (fun r => lineFromResult (parse r)) := by
  intro chunks
  induction chunks with
  | nil =>
    intro b hb h0
    show ([] : List (Except Unit ImageCreateStreamLine)) = _
    rw [List.flatten_nil, List.append_nil]
    have hFc : imageFc b.asRef = ([], 0) := by rw [imageFc_step, h0]
    rw [hFc]
    rfl
  | cons d ds ih =>
    intro b hb h0
    have hassoc : b.asRef ++ (d :: ds).flatten
        = (b.asRef ++ d) ++ ds.flatten := by
      rw [List.flatten_cons, List.append_assoc]
    rw [hassoc]
    have hext := imageExtract_eq parse (b.append d) (append_inv b d hb)
    have hasr : (b.append d).asRef = b.asRef ++ d := asRef_append b d hb
    have hb2asr : (imageExtract parse (b.append d)).2.asRef
        = (b.asRef ++ d).drop (imageFc (b.asRef ++ d)).2 := by
      rw [hext.2.1, hasr]
    have hleft : findCRLF ((imageExtract parse (b.append d)).2.asRef)
        = none := by
      rw [hb2asr]
      exact imageFc_leftover (b.asRef ++ d).length (b.asRef ++ d) le_rfl
    have happ := imageFc_append (b.asRef ++ d).length (b.asRef ++ d)
      ds.flatten le_rfl
    have hih := ih (imageExtract parse (b.append d)).2 hext.2.2 hleft
    show ((imageExtract parse (b.append d)).1
        ++ (imageFeed parse (imageExtract parse (b.append d)).2 ds).1) = _
    rw [hih, hext.1, hasr, hb2asr, happ]
    simp [List.map_append]

/-- C5 counterexample: splitting a log byte stream into two appends — an
invalid-UTF-8 frame, then a valid frame — yields `[error, ok]`, while a
single extract over the concatenation stops at the error and yields only
`[error]`. -/
theorem extract_split_counterexample :
    (logFeed (DockerStreamBuffer.mk 0 [])
        [[1, 0, 0, 0, 0, 0, 0, 1, 255], [1, 0, 0, 0, 0, 0, 0, 1, 65]]).1
      ≠ (logExtract ((DockerStreamBuffer.mk 0 []).append
          ([[1, 0, 0, 0, 0, 0, 0, 1, 255],
            [1, 0, 0, 0, 0, 0, 0, 1, 65]].flatten))).1 := by
  intro h
  have h1 : (logFeed (DockerStreamBuffer.mk 0 [])
      [[1, 0, 0, 0, 0, 0, 0, 1, 255], [1, 0, 0, 0, 0, 0, 0, 1, 65]]).1
      = [Except.error (), Except.ok [65]] := rfl
  have h2 : (logExtract ((DockerStreamBuffer.mk 0 []).append
      ([[1, 0, 0, 0, 0, 0, 0, 1, 255],
        [1, 0, 0, 0, 0, 0, 0, 1, 65]].flatten))).1
      = [Except.error ()] := rfl
  rw [h1, h2] at h
  exact absurd (congrArg List.length h) (by decide)

/-- C5 (amended): starting from an empty buffer, the image-pull codec
satisfies split-invariance unconditionally (for every record decoder),
and the log codec satisfies it provided the single extract over the whole
sequence produces no error item; with an invalid-UTF-8 frame before
further data the log codec violates it. -/
theorem extract_split_invariance
    (parse : List Nat → Except Unit ImageCreateStreamItem)
    (b : DockerStreamBuffer) (chunks : List (List Nat))
    (hb : b.inv) (he : b.asRef = []) :
    ((imageFeed parse b chunks).1
        = (imageExtract parse (b.append chunks.flatten)).1)
    ∧ (errFree (logExtract (b.append chunks.flatten)).1 = true →
        (logFeed b chunks).1 = (logExtract (b.append chunks.flatten)).1) := by
  constructor
  · have h1 := feedImage_general parse chunks b hb (by rw [he]; rfl)
    have hext := imageExtract_eq parse (b.append chunks.flatten)
      (append_inv _ _ hb)
    rw [h1, hext.1, asRef_append b _ hb, he, List.nil_append]
  · intro herr
    have hfc0 : logFc b.asRef = ([], 0) := by rw [he]; rfl
    have hext := logExtract_eq (b.append chunks.flatten) (append_inv _ _ hb)
    have hasr : (b.append chunks.flatten).asRef = b.asRef ++ chunks.flatten :=
      asRef_append b _ hb
    have herr2 : errFree (logFc (b.asRef ++ chunks.flatten)).1 = true := by
      rw [hext.1, hasr] at herr
      exact herr
    have h1 := feedLog_general chunks b hb hfc0 herr2
    rw [h1, hext.1, hasr]

/-- Witness for C5 (amended) on a one-chunk valid stream. -/
theorem extract_split_invariance_witness :
    (imageFeed (fun _ => Except.error ()) (DockerStreamBuffer.mk 0 [])
        [[1, 0, 0, 0, 0, 0, 0, 1, 65]]).1
      = (imageExtract (fun _ => Except.error ())
          ((DockerStreamBuffer.mk 0 []).append
            [[1, 0, 0, 0, 0, 0, 0, 1, 65]].flatten)).1
    ∧ (logFeed (DockerStreamBuffer.mk 0 []) [[1, 0, 0, 0, 0, 0, 0, 1, 65]]).1
      = (logExtract ((DockerStreamBuffer.mk 0 []).append
          [[1, 0, 0, 0, 0, 0, 0, 1, 65]].flatten)).1 :=
  ⟨(extract_split_invariance (fun _ => Except.error ())
      (DockerStreamBuffer.mk 0 []) [[1, 0, 0, 0, 0, 0, 0, 1, 65]]
      (by decide) (by decide)).1,
   (extract_split_invariance (fun _ => Except.error ())
      (DockerStreamBuffer.mk 0 []) [[1, 0, 0, 0, 0, 0, 0, 1, 65]]
      (by decide) (by decide)).2 (by decide)⟩
